import Mathlib

/-
  Verification of the qplay quantum-circuit library core.

  Shallow embedding of the Go sources:
    - qc/gate/builtin.go, qc/gate/gate.go      (gate catalog, Factory)
    - qc/dag/dag.go, qc/dag/add.go             (DAG builder, two AddGate variants)
    - qc/builder/builder.go                    (fluent builder call language)
    - qc/circuit/circuit.go                    (layout; two FromDAG variants)
    - qc/simulator/qsim/state.go, runner.go    (statevector kernel, ValidateCircuit)
    - simulator RunSerial (src/unnamed/part_008, qc/simulator/itsu/itsu_serial.go)

  Go machine integers in these code paths are small non-negative counters and
  indices (node ids, qubit counts, shot counts); they are modelled as Nat/Int,
  far from any overflow boundary.  float64/complex128 amplitudes are idealised
  as real/complex numbers; no claim settled here depends on rounding.
-/

deriving instance DecidableEq for Except

namespace QPlay

/-! ## Gate catalog (qc/gate/builtin.go)

A gate is an immutable descriptor: canonical name, qubit span, draw symbol,
relative target and control indices.  The Go singletons hGate .. measG are
plain values here; Go pointer identity of singletons is modelled by
structural equality, which the source comments say suffices. -/

structure Gate where
  name : String
  qubitSpan : Nat
  drawSymbol : String
  targets : List Nat
  controls : List Nat
deriving DecidableEq, Repr

def hGate : Gate := ⟨"H", 1, "H", [0], []⟩

def xGate : Gate := ⟨"X", 1, "X", [0], []⟩

def yGate : Gate := ⟨"Y", 1, "Y", [0], []⟩

def sGate : Gate := ⟨"S", 1, "S", [0], []⟩

def zGate : Gate := ⟨"Z", 1, "Z", [0], []⟩

def swapG : Gate := ⟨"SWAP", 2, "×", [0, 1], []⟩

def cnotG : Gate := ⟨"CNOT", 2, "⊕", [1], [0]⟩

def czGate : Gate := ⟨"CZ", 2, "●", [1], [0]⟩

def toffG : Gate := ⟨"TOFFOLI", 3, "T", [2], [0, 1]⟩

def fredG : Gate := ⟨"FREDKIN", 3, "F", [1, 2], [0]⟩

def measG : Gate := ⟨"MEASURE", 1, "M", [0], []⟩

/-- Error value returned by the gate factory (qc/gate/gate.go, ErrUnknownGate). -/
structure ErrUnknownGate where
  gname : String
deriving DecidableEq, Repr

/-- ASCII lower-casing of one character (strings.ToLower restricted to the
ASCII range, which covers every gate spelling). -/
def lowerChar (c : Char) : Char :=
  if 'A' ≤ c ∧ c ≤ 'Z' then Char.ofNat (c.toNat + 32) else c

/-- ASCII whitespace (strings.TrimSpace cut set restricted to ASCII). -/
def isSpaceChar (c : Char) : Bool :=
  c = ' ' ∨ c = '\t' ∨ c = '\n' ∨ c = '\r'

/-- Source helper norm (qc/gate/gate.go line 53): the lower-cased,
whitespace-trimmed name, strings.ToLower(strings.TrimSpace(s)).  Spelled
out over the character list so that it evaluates inside the kernel. -/
def normName (s : String) : String :=
  String.mk
    ((((s.data.dropWhile isSpaceChar).reverse.dropWhile isSpaceChar).reverse).map lowerChar)

/-- Embedding of Factory (qc/gate/gate.go lines 19-44).  The source really
does return an error for the spelling z, with a stale placeholder comment,
even though the Z singleton exists in builtin.go; and it has no case for y
at all. -/
def Factory (name : String) : Except ErrUnknownGate Gate :=
  match normName name with
  | "h" => .ok hGate
  | "x" => .ok xGate
  | "z" => .error ⟨"Z"⟩
  | "s" => .ok sGate
  | "swap" => .ok swapG
  | "cx" => .ok cnotG
  | "cnot" => .ok cnotG
  | "cz" => .ok czGate
  | "t" => .ok toffG
  | "toffoli" => .ok toffG
  | "ccx" => .ok toffG
  | "fredkin" => .ok fredG
  | "cswap" => .ok fredG
  | "m" => .ok measG
  | "measure" => .ok measG
  | "meas" => .ok measG
  | _ => .error ⟨name⟩

/-! ## DAG builder (qc/dag/dag.go)

A Node is one DAG vertex.  Go NodeID is a uint64 drawn from an atomic counter
starting at 1 (nextID), so 0 is the no-last-writer sentinel; modelled as Nat
with a per-DAG nextId counter.  Qubit indices are Go ints (possibly negative
at the API boundary), modelled as Int. -/

structure Node where
  id : Nat
  g : Gate
  qubits : List Int
  cbit : Int
  parents : List Nat
  children : List Nat
deriving DecidableEq, Repr

/-- DAG container (qc/dag/dag.go struct DAG).  nodes is the id-keyed map,
modelled as a list in insertion order (ids are unique, see the invariants);
byQ is the per-qubit chronological list; last the per-qubit last writer
(0 = none); valid the frozen flag; nextId the id counter. -/
structure DAG where
  qubits : Nat
  clbits : Nat
  nodes : List Node
  byQ : List (List Nat)
  last : List Nat
  valid : Bool
  nextId : Nat
deriving DecidableEq, Repr

/-- Embedding of New (qc/dag/dag.go lines 70-80). -/
def DAG.new (qb cb : Nat) : DAG :=
  ⟨qb, cb, [], List.replicate qb [], List.replicate qb 0, false, 1⟩

/-- Error values of the dag package (ErrValidated, ErrSpan, ErrBadQubit,
ErrBadClbit, and the fmt.Errorf duplicate-qubit error of checkGate). -/
inductive DagErr where
  | validated
  | span
  | badQubit
  | badClbit
  | duplicateQubit
deriving DecidableEq, Repr

/-- Loop body of checkGate (qc/dag/dag.go lines 195-206): per qubit, range
check first, then the seen-map duplicate check. -/
def checkGateAux (qubits : Nat) : List Int → List Int → Option DagErr
  | _, [] => none
  | seen, q :: rest =>
    if q < 0 ∨ (qubits : Int) ≤ q then some .badQubit
    else if q ∈ seen then some .duplicateQubit
    else checkGateAux qubits (q :: seen) rest

/-- Embedding of checkGate (qc/dag/dag.go lines 190-207): span check, then
the per-qubit loop. -/
def checkGate (qubits : Nat) (g : Gate) (qs : List Int) : Option DagErr :=
  if qs.length ≠ g.qubitSpan then some .span
  else checkGateAux qubits [] qs

/-- Append nid to the children of the node with id pid (the Go statement
d.nodes[prev].children = append(..., n.ID)). -/
def addChild (nodes : List Node) (pid nid : Nat) : List Node :=
  nodes.map fun m => if m.id = pid then { m with children := m.children ++ [nid] } else m

/-- Accumulator of the edge-building loop of AddGate: the evolving node map,
last-writer array, per-wire logs, and the parent list of the new node. -/
structure EdgeAcc where
  nodes : List Node
  byQ : List (List Nat)
  last : List Nat
  parents : List Nat
deriving DecidableEq, Repr

/-- One iteration of the edge-building loop of AddGate (qc/dag/dag.go lines
106-117), with the parentSet deduplication: prev = last[q]; if prev is
nonzero and not yet a parent, record the edge; then update last[q] and
byQ[q]. -/
def buildEdgesStep (nid : Nat) (acc : EdgeAcc) (q : Int) : EdgeAcc :=
  let qi := q.toNat
  let prev := acc.last.getD qi 0
  let acc1 :=
    if prev ≠ 0 ∧ prev ∉ acc.parents then
      { acc with nodes := addChild acc.nodes prev nid, parents := acc.parents ++ [prev] }
    else acc
  { acc1 with last := acc1.last.set qi nid, byQ := acc1.byQ.set qi (acc1.byQ.getD qi [] ++ [nid]) }

/-- Edge-building loop of AddGate (qc/dag/dag.go lines 105-118). -/
def buildEdges (nid : Nat) : EdgeAcc → List Int → EdgeAcc
  | acc, [] => acc
  | acc, q :: rest => buildEdges nid (buildEdgesStep nid acc q) rest

/-- Embedding of AddGate (qc/dag/dag.go lines 90-120): frozen check, gate
check, then node allocation and the edge-building loop.  On error the Go
method returns before mutating, so the caller's DAG is unchanged; here the
error branch simply carries no new state. -/
def AddGate (d : DAG) (g : Gate) (qs : List Int) : Except DagErr DAG :=
  if d.valid then .error .validated
  else
    match checkGate d.qubits g qs with
    | some e => .error e
    | none =>
      let nid := d.nextId
      let acc := buildEdges nid ⟨d.nodes, d.byQ, d.last, []⟩ qs
      .ok { d with
              nodes := acc.nodes ++ [⟨nid, g, qs, -1, acc.parents, []⟩],
              byQ := acc.byQ, last := acc.last, nextId := nid + 1 }

/-- Embedding of AddMeasure (qc/dag/dag.go lines 123-147): range checks on q
and c, then a single-wire node whose parent is the last writer of q. -/
def AddMeasure (d : DAG) (q c : Int) : Except DagErr DAG :=
  if d.valid then .error .validated
  else if q < 0 ∨ (d.qubits : Int) ≤ q then .error .badQubit
  else if c < 0 ∨ (d.clbits : Int) ≤ c then .error .badClbit
  else
    let nid := d.nextId
    let qi := q.toNat
    let prev := d.last.getD qi 0
    let nodes1 := if prev ≠ 0 then addChild d.nodes prev nid else d.nodes
    .ok { d with
            nodes := nodes1 ++ [⟨nid, measG, [q], c, if prev ≠ 0 then [prev] else [], []⟩],
            byQ := d.byQ.set qi (d.byQ.getD qi [] ++ [nid]),
            last := d.last.set qi nid,
            nextId := nid + 1 }

/-- One iteration of the edge loop of the historical AddGate variant
(qc/dag/add.go lines 23-29): identical except that there is no parentSet,
so the same last-writer id is appended once per touched qubit. -/
def buildEdgesAltStep (nid : Nat) (acc : EdgeAcc) (q : Int) : EdgeAcc :=
  let qi := q.toNat
  let prev := acc.last.getD qi 0
  let acc1 :=
    if prev ≠ 0 then
      { acc with nodes := addChild acc.nodes prev nid, parents := acc.parents ++ [prev] }
    else acc
  { acc1 with last := acc1.last.set qi nid, byQ := acc1.byQ.set qi (acc1.byQ.getD qi [] ++ [nid]) }

/-- Edge-building loop of the historical AddGate variant (qc/dag/add.go
lines 22-30). -/
def buildEdgesAlt (nid : Nat) : EdgeAcc → List Int → EdgeAcc
  | acc, [] => acc
  | acc, q :: rest => buildEdgesAlt nid (buildEdgesAltStep nid acc q) rest

/-- Embedding of the historical AddGate variant (qc/dag/add.go lines 7-31);
its free-function checkGate performs the same span/range/duplicate checks. -/
def AddGateAlt (d : DAG) (g : Gate) (qs : List Int) : Except DagErr DAG :=
  if d.valid then .error .validated
  else
    match checkGate d.qubits g qs with
    | some e => .error e
    | none =>
      let nid := d.nextId
      let acc := buildEdgesAlt nid ⟨d.nodes, d.byQ, d.last, []⟩ qs
      .ok { d with
              nodes := acc.nodes ++ [⟨nid, g, qs, -1, acc.parents, []⟩],
              byQ := acc.byQ, last := acc.last, nextId := nid + 1 }

/-! ## Fluent builder call language (qc/builder/builder.go)

The builder exposes exactly these gate methods; each forwards to AddGate
with the catalog singleton, or to AddMeasure.  The first error is latched
and later calls short-circuit. -/

inductive BCall where
  | h (q : Int)
  | x (q : Int)
  | s (q : Int)
  | cnot (c t : Int)
  | cz (c t : Int)
  | swap (a b : Int)
  | toffoli (a b t : Int)
  | fredkin (c t1 t2 : Int)
  | measure (q c : Int)
deriving DecidableEq, Repr

/-- Dispatch of one builder call (qc/builder/builder.go lines 67-84). -/
def applyCall (d : DAG) : BCall → Except DagErr DAG
  | .h q => AddGate d hGate [q]
  | .x q => AddGate d xGate [q]
  | .s q => AddGate d sGate [q]
  | .cnot c t => AddGate d cnotG [c, t]
  | .cz c t => AddGate d czGate [c, t]
  | .swap a b => AddGate d swapG [a, b]
  | .toffoli a b t => AddGate d toffG [a, b, t]
  | .fredkin c t1 t2 => AddGate d fredG [c, t1, t2]
  | .measure q c => AddMeasure d q c

/-- Run a builder program with the error latch (builder.go bail pattern):
after the first error no further call touches the DAG.  Returns the DAG
accumulated so far together with the latched error. -/
def buildSteps (st : DAG × Option DagErr) (call : BCall) : DAG × Option DagErr :=
  match st.2 with
  | some _ => st
  | none =>
    match applyCall st.1 call with
    | .ok d2 => (d2, none)
    | .error e => (st.1, some e)

/-- The DAG produced by a builder program started from New qb cb. -/
def buildDag (qb cb : Nat) (prog : List BCall) : DAG :=
  (prog.foldl buildSteps (DAG.new qb cb, none)).1

/-! ## Laid-out circuit (qc/circuit/circuit.go)

The current FromDAG (lines 147-218) takes the DAGReader's topologically
ordered node list, assigns each node a time step from its parents' steps via
an id-keyed map, a line (minimum absolute qubit), and stable-sorts by
(time_step, line).  The nodeTimeStep map is modelled as an association list
with newest entries in front. -/

structure Operation where
  g : Gate
  qubits : List Int
  cbit : Int
  timeStep : Int
  line : Int
deriving DecidableEq, Repr

/-- Lookup in the nodeTimeStep map (Go map access pStep, ok := m[pID]). -/
def tsLookup : List (Nat × Int) → Nat → Option Int
  | [], _ => none
  | (k, v) :: rest, p => if k = p then some v else tsLookup rest p

/-- Parent fold of FromDAG (circuit.go lines 160-170): currentMaxParentStep
starts at -1, each parent found in the map raises it; the step is that
maximum plus one. -/
def layoutStep (m : List (Nat × Int)) (parents : List Nat) : Int :=
  (parents.foldl
    (fun cur p =>
      match tsLookup m p with
      | some s => if s > cur then s else cur
      | none => cur)
    (-1)) + 1

/-- Line computation of FromDAG (circuit.go lines 173-182): -1 for an empty
qubit list, else the minimum. -/
def minQubit : List Int → Int
  | [] => -1
  | q :: rest => rest.foldl (fun mn x => if x < mn then x else mn) q

/-- The pre-sort operation list of FromDAG, in the order of the input nodes,
threading the nodeTimeStep map. -/
def layoutOpsAux (m : List (Nat × Int)) : List Node → List Operation
  | [] => []
  | n :: rest =>
    let step := layoutStep m n.parents
    ⟨n.g, n.qubits, n.cbit, step, minQubit n.qubits⟩ :: layoutOpsAux ((n.id, step) :: m) rest

/-- The nodeTimeStep map after FromDAG's single pass. -/
def tsMapAux (m : List (Nat × Int)) : List Node → List (Nat × Int)
  | [] => m
  | n :: rest => tsMapAux ((n.id, layoutStep m n.parents) :: m) rest

/-- maxStep accumulation of FromDAG (initialised to -1, raised whenever a
node's step exceeds it; the Go loop interleaves this with building ops, the
fold over the produced steps performs the identical sequence of updates). -/
def maxStepFold (ops : List Operation) : Int :=
  ops.foldl (fun mx o => if o.timeStep > mx then o.timeStep else mx) (-1)

/-- Comparator of the sort.SliceStable call (circuit.go lines 203-209). -/
def opLess (a b : Operation) : Bool :=
  if a.timeStep ≠ b.timeStep then decide (a.timeStep < b.timeStep)
  else decide (a.line < b.line)

/-- The non-strict order underlying the stable sort: a may stay before b
exactly when b is not strictly less than a. -/
def leOp (a b : Operation) : Prop := opLess b a = false

/-- The sort key of an operation: its (time_step, line) pair. -/
def opKey (o : Operation) : Int × Int := (o.timeStep, o.line)

instance : DecidableRel leOp := fun a b => by
  unfold leOp
  infer_instance

instance : IsTotal Operation leOp :=
  ⟨fun a b => by
    simp only [leOp, opLess]
    by_cases h : a.timeStep = b.timeStep
    · simp [h]
      omega
    · simp [h, Ne.symm h]
      omega⟩

instance : IsTrans Operation leOp :=
  ⟨fun a b c hab hbc => by
    simp only [leOp, opLess] at hab hbc ⊢
    split at hab <;> split at hbc <;> split <;>
      simp only [decide_eq_false_iff_not, Decidable.not_not, ne_eq] at * <;> omega⟩

/-- The laid-out circuit record (circuit.go struct circuit, lines 126-132). -/
structure CircuitL where
  qubits : Nat
  clbits : Nat
  ops : List Operation
  depth : Int
  maxStep : Int
deriving DecidableEq, Repr

/-- Embedding of the current FromDAG (circuit.go lines 147-218): empty node
list gives the empty circuit with depth 0 and maxStep -1; otherwise the
single pass computes steps and lines and the result is stable-sorted by
(time_step, line).  Mathlib's insertionSort over leOp is a stable sort, the
same function sort.SliceStable computes. -/
def FromDAG (qb cb : Nat) (nodes : List Node) : CircuitL :=
  if nodes.isEmpty then ⟨qb, cb, [], 0, -1⟩
  else
    let pre := layoutOpsAux [] nodes
    let mx := maxStepFold pre
    ⟨qb, cb, List.insertionSort leOp pre, mx + 1, mx⟩

/-- Accessor Operations() (circuit.go lines 232-237; returns a copy). -/
def CircuitL.Operations (c : CircuitL) : List Operation := c.ops

/-- Accessor MaxStep() (circuit.go lines 228-230). -/
def CircuitL.MaxStep (c : CircuitL) : Int := c.maxStep

/-- Accessor Depth() (circuit.go lines 224-226). -/
def CircuitL.Depth (c : CircuitL) : Int := c.depth

/-! ## Historical layout variant (qc/circuit/circuit.go lines 26-111)

The older FromDAG keeps no maxStep field: its circuit struct stores only the
sorted ops, and MaxStep() recomputes the maximum starting from 0, so an
empty circuit reports MaxStep 0 and Depth 1. -/

/-- Parent fold of the older FromDAG (lines 39-48): nodeDepth starts at 0
and each found parent p raises it to pDepth + 1 when larger. -/
def layoutStepV1 (m : List (Nat × Int)) (parents : List Nat) : Int :=
  parents.foldl
    (fun cur p =>
      match tsLookup m p with
      | some s => if s + 1 > cur then s + 1 else cur
      | none => cur)
    0

/-- Pre-sort operation list of the older FromDAG (lines 37-72). -/
def layoutOpsV1Aux (m : List (Nat × Int)) : List Node → List Operation
  | [] => []
  | n :: rest =>
    let step := layoutStepV1 m n.parents
    ⟨n.g, n.qubits, n.cbit, step, minQubit n.qubits⟩ :: layoutOpsV1Aux ((n.id, step) :: m) rest

/-- The older circuit struct (lines 26-29) keeps only the sorted ops. -/
structure CircuitV1 where
  ops : List Operation
deriving DecidableEq, Repr

/-- Embedding of the older FromDAG (lines 32-85): no empty-circuit special
case; ops are computed and stable-sorted exactly as in the newer variant. -/
def FromDAGv1 (nodes : List Node) : CircuitV1 :=
  ⟨List.insertionSort leOp (layoutOpsV1Aux [] nodes)⟩

/-- Older MaxStep() (circuit.go lines 95-103): max starts at 0, so the empty
operation list yields 0, not -1. -/
def CircuitV1.MaxStep (c : CircuitV1) : Int :=
  c.ops.foldl (fun mx o => if o.timeStep > mx then o.timeStep else mx) 0

/-- Older Depth() (circuit.go lines 89-92): MaxStep() + 1. -/
def CircuitV1.Depth (c : CircuitV1) : Int := c.MaxStep + 1

/-- Older Operations() (circuit.go lines 105-108). -/
def CircuitV1.Operations (c : CircuitV1) : List Operation := c.ops

/-! ## Backend circuit validation (qc/simulator/qsim/runner.go lines 246-283) -/

/-- Errors of ValidateCircuit (each a distinct fmt.Errorf in the source). -/
inductive QsimErr where
  | tooManyQubits
  | tooDeep
  | unsupportedGate (gname : String)
  | invalidQubit
  | invalidClbit
deriving DecidableEq, Repr

/-- Supported gate names of the qsim backend (runner.go lines 15-17). -/
def supportedGates : List String :=
  ["H", "X", "Y", "Z", "S", "CNOT", "CZ", "SWAP", "TOFFOLI", "FREDKIN", "MEASURE"]

/-- Per-operation checks of ValidateCircuit: supported-gate scan, qubit
range check, classical-bit upper-bound check (Cbit = -1 passes). -/
def validateOp (qb cb : Nat) (op : Operation) : Option QsimErr :=
  if op.g.name ∉ supportedGates then some (.unsupportedGate op.g.name)
  else if op.qubits.any (fun q => decide (q < 0) || decide ((qb : Int) ≤ q)) then
    some .invalidQubit
  else if (cb : Int) ≤ op.cbit then some .invalidClbit
  else none

/-- The operation loop of ValidateCircuit, returning the first error. -/
def validateOps (qb cb : Nat) : List Operation → Option QsimErr
  | [] => none
  | op :: rest =>
    match validateOp qb cb op with
    | some e => some e
    | none => validateOps qb cb rest

/-- Embedding of ValidateCircuit (runner.go lines 246-283): qubit cap 20,
depth cap 1000, then the per-operation checks; none means a nil error. -/
def ValidateCircuit (c : CircuitL) : Option QsimErr :=
  if c.qubits > 20 then some .tooManyQubits
  else if c.depth > 1000 then some .tooDeep
  else validateOps c.qubits c.clbits c.ops

/-! ## Statevector kernel (qc/simulator/qsim/state.go)

Amplitudes are a dense list indexed by basis state; bit q of the index is
qubit q.  complex128 is idealised as the complex numbers.  The gate kernels
needed by the claims only permute list entries, so they are stated over an
arbitrary element type; Measure needs the full numeric state. -/

/-- Go i &^ m (AND NOT): remove from i the bits it shares with m. -/
def andNot (i m : Nat) : Nat := i - (i &&& m)

/-- In-place swap of two slice entries, a[i], a[j] = a[j], a[i]; out-of-range
indices leave the list unchanged (never hit by the kernels). -/
def swapIdx {α : Type} (a : List α) (i j : Nat) : List α :=
  match a.get? i, a.get? j with
  | some x, some y => (a.set i y).set j x
  | _, _ => a

/-- Loop body of applyFredkin (state.go lines 372-392): for index i with the
control bit set and the two target bits different, compute the partner j and
swap the two amplitudes.  The source has no i < j guard here (applySwap,
lines 308-331, does have one), so each partner pair is swapped twice. -/
def fredkinBody {α : Type} (cm m1 m2 : Nat) (a : List α) (i : Nat) : List α :=
  if i &&& cm ≠ 0 then
    let bit1 := decide (i &&& m1 ≠ 0)
    let bit2 := decide (i &&& m2 ≠ 0)
    if bit1 ≠ bit2 then
      let j := if bit1 then andNot i m1 ||| m2 else andNot i m2 ||| m1
      swapIdx a i j
    else a
  else a

/-- Embedding of applyFredkin (state.go lines 367-395): range guard on the
three qubits, then the sequential loop over all basis indices. -/
def applyFredkin {α : Type} (numQubits : Nat) (amps : List α)
    (control target1 target2 : Nat) : Except String (List α) :=
  if numQubits ≤ control ∨ numQubits ≤ target1 ∨ numQubits ≤ target2 then
    .error "invalid qubits"
  else
    let cm := 2 ^ control
    let m1 := 2 ^ target1
    let m2 := 2 ^ target2
    .ok ((List.range amps.length).foldl (fredkinBody cm m1 m2) amps)

/-- Modelled from the spec (section 4.4, Fredkin): partner index of i under
the direct controlled-swap - when the control bit is set and the two target
bits differ, the index with the two target bits exchanged; otherwise i. -/
def fredkinMate (cm m1 m2 i : Nat) : Nat :=
  if i &&& cm ≠ 0 ∧ i &&& m1 ≠ 0 ∧ i &&& m2 = 0 then andNot i m1 ||| m2
  else if i &&& cm ≠ 0 ∧ i &&& m1 = 0 ∧ i &&& m2 ≠ 0 then andNot i m2 ||| m1
  else i

/-- Modelled from the spec (section 4.4, Fredkin): the direct definition.
For every i with bit_c set, bit_t1 set, bit_t2 clear, the amplitudes at i
and at j = (i with t1 cleared, t2 set) are exchanged; every other amplitude
is unchanged.  Stated as: the new amplitude at each index is the old
amplitude at its partner. -/
def fredkinDirect {α : Type} (control target1 target2 : Nat) (amps : List α) : List α :=
  let cm := 2 ^ control
  let m1 := 2 ^ target1
  let m2 := 2 ^ target2
  amps.enum.map fun p => amps.getD (fredkinMate cm m1 m2 p.1) p.2

/-- The quantum state (state.go struct QuantumState). -/
structure QuantumState where
  numQubits : Nat
  amplitudes : List ℂ
  numClassical : Nat
  classicalBits : List Bool

/-- Embedding of Measure (state.go lines 112-152).  The Go method returns
false immediately for qubit ≥ numQubits, before any probability computation,
sampling, or state mutation; otherwise it computes p1, samples via
rand.Float64() (the parameter r), zeroes the incompatible amplitudes and
renormalises when the surviving norm exceeds 1e-10.  Classical bits are
never touched by Measure (the caller writes them). -/
noncomputable def Measure (qs : QuantumState) (qubit : Nat) (r : ℝ) : Bool × QuantumState :=
  if qs.numQubits ≤ qubit then (false, qs)
  else
    let mask := 2 ^ qubit
    let probOne := qs.amplitudes.enum.foldl
      (fun acc p => if p.1 &&& mask ≠ 0 then acc + Complex.normSq p.2 else acc) 0
    let result := decide (r < probOne)
    let amps1 := qs.amplitudes.enum.map
      (fun p => if decide (p.1 &&& mask ≠ 0) ≠ result then 0 else p.2)
    let nrm := qs.amplitudes.enum.foldl
      (fun acc p => if decide (p.1 &&& mask ≠ 0) = result then acc + Complex.normSq p.2 else acc) 0
    let final :=
      if nrm > 1 / 10000000000 then
        amps1.enum.map
          (fun p =>
            if decide (p.1 &&& mask ≠ 0) = result then p.2 / Complex.ofReal (Real.sqrt nrm)
            else p.2)
      else amps1
    (result, { qs with amplitudes := final })

/-! ## Serial shot execution (src/unnamed/part_008 RunSerial)

The loop runs shot indices 0..N-1; the first failing shot aborts with the
error wrapped with the 1-based ordinal i+1 and the histogram accumulated so
far; map[string]int histogram increments are modelled as a multiset of
outcome keys (count of a key = its map entry, total count = card).  The
itsu variant (qc/simulator/itsu/itsu_serial.go) has the same loop, plus a
shots<=0 -> 1024 defaulting not involved in the claim. -/

def runSerialLoop {ε α : Type} (runOnce : Nat → Except ε α) :
    Multiset α → List Nat → Multiset α × Option (Nat × ε)
  | hist, [] => (hist, none)
  | hist, i :: rest =>
    match runOnce i with
    | .error e => (hist, some (i + 1, e))
    | .ok key => runSerialLoop runOnce (key ::ₘ hist) rest

/-- Embedding of Simulator.RunSerial (src/unnamed/part_008 lines 12-35). -/
def RunSerial {ε α : Type} (shots : Nat) (runOnce : Nat → Except ε α) :
    Multiset α × Option (Nat × ε) :=
  runSerialLoop runOnce 0 (List.range shots)

/-- The parents-before property of a node list: scanning left to right,
every node's parents are among the already seen ids. -/
def ParentsBeforeB (seen : List Nat) : List Node → Bool
  | [] => true
  | n :: rest => (n.parents.all fun p => decide (p ∈ seen)) && ParentsBeforeB (n.id :: seen) rest

/-- The fold of FromDAG's parent loop, abstracted over the accumulator. -/
def stepFold (m : List (Nat × Int)) (i : Int) (parents : List Nat) : Int :=
  parents.foldl
    (fun cur p =>
      match tsLookup m p with
      | some s => if s > cur then s else cur
      | none => cur)
    i

/-- The time step FromDAG's nodeTimeStep map assigns to id i when fed
d.nodes in creation order (0 when absent). -/
def tsOfId (d : DAG) (i : Nat) : Int :=
  (tsLookup (tsMapAux [] d.nodes) i).getD 0

/-- The projection of a node that the time-step computation depends on:
everything except the mutable children list and the payload. -/
def coreOf (n : Node) : Nat × List Int × List Nat :=
  (n.id, n.qubits, n.parents)

/-- Invariant of every DAG reachable by builder calls from New. -/
structure BInv (d : DAG) : Prop where
  lastLen : d.last.length = d.qubits
  nextPos : 1 ≤ d.nextId
  idsBound : ∀ n ∈ d.nodes, 1 ≤ n.id ∧ n.id < d.nextId
  idsSorted : d.nodes.Pairwise fun a b => a.id < b.id
  parentsGood : ∀ n ∈ d.nodes, ∀ p ∈ n.parents, p < n.id ∧ ∃ m ∈ d.nodes, m.id = p
  lastGood : ∀ i : Nat, d.last.getD i 0 = 0 ∨ ∃ m ∈ d.nodes, m.id = d.last.getD i 0
  qubitsNe : ∀ n ∈ d.nodes, n.qubits ≠ []
  domInv : ∀ m ∈ d.nodes, ∀ q ∈ m.qubits, 0 ≤ q ∧ q < (d.qubits : Int) ∧
    ∃ w ∈ d.nodes, w.id = d.last.getD q.toNat 0 ∧
      (tsOfId d m.id < tsOfId d w.id ∨ m.id = w.id)
  pairInv : ∀ a ∈ d.nodes, ∀ b ∈ d.nodes, a.id ≠ b.id →
    ∀ q : Int, q ∈ a.qubits → q ∈ b.qubits → tsOfId d a.id ≠ tsOfId d b.id

/-- The operation a node is laid out to, with the time step of the
creation-order pass: the order-independent canonical meaning of a node. -/
def canonOp (d : DAG) (n : Node) : Operation :=
  ⟨n.g, n.qubits, n.cbit, tsOfId d n.id, minQubit n.qubits⟩

/-- Probe backend for the C7 witness: shots 0 and 1 succeed with outcome
"00", every later shot fails with "boom". -/
def serialProbe : Nat → Except String String :=
  fun i => if i < 2 then .ok "00" else .error "boom"

/-- A concrete validated-DAG node list, the layering-determinism example:
H(0); H(1); CNOT(0,2); X(1); CZ(0,1) on three qubits, in creation order. -/
def nodesW : List Node :=
  [⟨1, hGate, [0], -1, [], [3]⟩, ⟨2, hGate, [1], -1, [], [4]⟩,
   ⟨3, cnotG, [0, 2], -1, [1], [5]⟩, ⟨4, xGate, [1], -1, [2], [5]⟩,
   ⟨5, czGate, [0, 1], -1, [3, 4], []⟩]

/-! ## Claim C6: gate factory aliases -/

/-- C6 counterexample: the factory does not cover the whole canonical
catalog.  Factory applied to the exact canonical spellings Z and y returns
ErrUnknownGate, although the Z and Y singletons exist in builtin.go.  This
refutes the claim that every catalog name resolves with no error. -/
theorem c6_factory_counterexample :
    Factory "Z" = .error ⟨"Z"⟩ ∧ Factory "y" = .error ⟨"y"⟩ ∧
    zGate.name = "Z" ∧ yGate.name = "Y" := by
  refine ⟨by decide, by decide, rfl, rfl⟩

/-- C6 amended: for the canonical names H, X, S, SWAP, CNOT, CZ, TOFFOLI,
FREDKIN, MEASURE and all the listed aliases, any spelling differing only in
case or surrounding whitespace (i.e. any s whose trimmed lower-casing is the
alias) yields the catalog singleton with no error; the catalog names Z and Y
are the exception, both yielding ErrUnknownGate. -/
theorem c6_factory_amended (s : String) :
    (normName s = "h" → Factory s = .ok hGate) ∧
    (normName s = "x" → Factory s = .ok xGate) ∧
    (normName s = "s" → Factory s = .ok sGate) ∧
    (normName s = "swap" → Factory s = .ok swapG) ∧
    (normName s = "cx" ∨ normName s = "cnot" → Factory s = .ok cnotG) ∧
    (normName s = "cz" → Factory s = .ok czGate) ∧
    (normName s = "t" ∨ normName s = "toffoli" ∨ normName s = "ccx" →
      Factory s = .ok toffG) ∧
    (normName s = "fredkin" ∨ normName s = "cswap" → Factory s = .ok fredG) ∧
    (normName s = "m" ∨ normName s = "measure" ∨ normName s = "meas" →
      Factory s = .ok measG) ∧
    (normName s = "z" → Factory s = .error ⟨"Z"⟩) ∧
    (normName s = "y" → Factory s = .error ⟨s⟩) := by
  unfold Factory
  refine ⟨fun h => by rw [h]; rfl, fun h => by rw [h]; rfl, fun h => by rw [h]; rfl,
    fun h => by rw [h]; rfl, fun h => ?_, fun h => by rw [h]; rfl, fun h => ?_,
    fun h => ?_, fun h => ?_, fun h => by rw [h]; rfl, fun h => by rw [h]; rfl⟩
  · rcases h with h | h <;> rw [h] <;> rfl
  · rcases h with h | h | h <;> rw [h] <;> rfl
  · rcases h with h | h <;> rw [h] <;> rfl
  · rcases h with h | h | h <;> rw [h] <;> rfl

/-- C6 witness: a concrete spelling with case and whitespace noise resolves
to the Hadamard singleton. -/
theorem c6_factory_witness : normName " H " = "h" ∧ Factory " H " = .ok hGate :=
  ⟨by decide, (c6_factory_amended " H ").1 (by decide)⟩

/-! ## Claim C5: empty circuit boundary values -/

/-- C5 counterexample: the historical circuit variant (circuit.go lines
26-111), applied to the empty validated DAG (whose Operations list is
empty), reports MaxStep 0 and Depth 1, not -1 and 0 as claimed. -/
theorem c5_empty_counterexample :
    (FromDAGv1 []).MaxStep = 0 ∧ (FromDAGv1 []).Depth = 1 ∧
    ¬((FromDAGv1 []).MaxStep = -1 ∧ (FromDAGv1 []).Depth = 0) := by
  refine ⟨rfl, rfl, by decide⟩

/-- C5 amended: the current FromDAG (circuit.go lines 147-218) gives the
empty circuit Depth 0, MaxStep -1 and an empty Operations enumeration; the
older variant (lines 26-111) instead reports MaxStep 0 and Depth 1 on the
same empty input. -/
theorem c5_empty_amended (qb cb : Nat) :
    (FromDAG qb cb []).Depth = 0 ∧ (FromDAG qb cb []).MaxStep = -1 ∧
    (FromDAG qb cb []).Operations = [] ∧
    (FromDAGv1 []).MaxStep = 0 ∧ (FromDAGv1 []).Depth = 1 ∧
    (FromDAGv1 []).Operations = [] :=
  ⟨rfl, rfl, rfl, rfl, rfl, rfl⟩

/-! ## Claim C1: the Fredkin kernel -/

/-- C1: the Fredkin kernel of state.go is a no-op.  Its loop has no i < j
guard (applySwap has one, with the comment "Avoid double swapping"), so
every partner pair is swapped twice and the state is returned unchanged.
On every 3-qubit state with control 0, targets 1 and 2, the kernel returns
the input amplitudes, while the direct controlled-swap definition of the
spec exchanges the amplitudes at indices 3 (binary 011) and 5 (binary 101);
at the concrete basis state |011⟩ the two results differ. -/
theorem c1_fredkin_code_bug :
    applyFredkin 3 ([0, 0, 0, 7, 0, 0, 0, 0] : List Nat) 0 1 2 =
      .ok [0, 0, 0, 7, 0, 0, 0, 0] ∧
    fredkinDirect 0 1 2 ([0, 0, 0, 7, 0, 0, 0, 0] : List Nat) =
      [0, 0, 0, 0, 0, 7, 0, 0] ∧
    applyFredkin 3 ([0, 0, 0, 7, 0, 0, 0, 0] : List Nat) 0 1 2 ≠
      .ok (fredkinDirect 0 1 2 ([0, 0, 0, 7, 0, 0, 0, 0] : List Nat)) ∧
    applyFredkin 3 ([10, 11, 12, 13, 14, 15, 16, 17] : List Nat) 0 1 2 =
      .ok [10, 11, 12, 13, 14, 15, 16, 17] ∧
    fredkinDirect 0 1 2 ([10, 11, 12, 13, 14, 15, 16, 17] : List Nat) =
      [10, 11, 12, 15, 14, 13, 16, 17] := by
  refine ⟨by decide, by decide, by decide, by decide, by decide⟩

/-! ## Claim C10: Measure on an out-of-range qubit -/

/-- C10: for every quantum state and qubit index at least the state's qubit
count, the kernel's Measure returns false with no error indication and
leaves the whole state (amplitudes and classical bits) unchanged: the guard
returns before any probability computation, sampling or mutation. -/
theorem c10_measure_out_of_range (qs : QuantumState) (qubit : Nat) (r : ℝ)
    (h : qs.numQubits ≤ qubit) :
    Measure qs qubit r = (false, qs) := by
  rw [Measure, if_pos h]

/-- C10 witness: measuring qubit 5 of a 1-qubit state at any sample point
returns false and the untouched state. -/
theorem c10_measure_witness :
    (1 : Nat) ≤ 5 ∧
      Measure ⟨1, [1, 0], 1, [false]⟩ 5 0 = (false, ⟨1, [1, 0], 1, [false]⟩) :=
  ⟨by decide, c10_measure_out_of_range ⟨1, [1, 0], 1, [false]⟩ 5 0 (by decide)⟩

/-! ## Claim C9: backend circuit validation -/

theorem validateOp_none (qb cb : Nat) (op : Operation)
    (hg : op.g.name ∈ supportedGates)
    (hq : ∀ q ∈ op.qubits, 0 ≤ q ∧ q < (qb : Int))
    (hc : op.cbit < (cb : Int)) :
    validateOp qb cb op = none := by
  have hany : ¬((op.qubits.any fun q => decide (q < 0) || decide ((qb : Int) ≤ q)) = true) := by
    simp only [List.any_eq_true, not_exists, not_and, Bool.or_eq_true, decide_eq_true_eq]
    intro q hqmem
    have := hq q hqmem
    omega
  rw [validateOp, if_neg (by simpa using hg), if_neg hany, if_neg (by omega)]

theorem validateOps_none (qb cb : Nat) (ops : List Operation)
    (h : ∀ op ∈ ops, validateOp qb cb op = none) :
    validateOps qb cb ops = none := by
  induction ops with
  | nil => rfl
  | cons op rest ih =>
    rw [validateOps, h op (by simp)]
    exact ih fun o ho => h o (by simp [ho])

/-- C9: ValidateCircuit of the qsim backend rejects every circuit with more
than 20 qubits and also every circuit whose depth exceeds 1000, returning an
error in both cases; a circuit within both limits whose gates are all in the
supported set and whose qubit and classical-bit indices are in range
validates with no error. -/
theorem c9_validate_circuit (c : CircuitL) :
    (20 < c.qubits → ∃ e, ValidateCircuit c = some e) ∧
    (1000 < c.depth → ∃ e, ValidateCircuit c = some e) ∧
    (c.qubits ≤ 20 → c.depth ≤ 1000 →
      (∀ op ∈ c.ops,
        op.g.name ∈ supportedGates ∧
        (∀ q ∈ op.qubits, 0 ≤ q ∧ q < (c.qubits : Int)) ∧
        op.cbit < (c.clbits : Int)) →
      ValidateCircuit c = none) := by
  refine ⟨fun h => ⟨.tooManyQubits, by rw [ValidateCircuit, if_pos h]⟩, fun h => ?_, ?_⟩
  · by_cases hq : 20 < c.qubits
    · exact ⟨.tooManyQubits, by rw [ValidateCircuit, if_pos hq]⟩
    · exact ⟨.tooDeep, by rw [ValidateCircuit, if_neg hq, if_pos h]⟩
  · intro h1 h2 h3
    rw [ValidateCircuit, if_neg (by omega), if_neg (by omega)]
    exact validateOps_none _ _ _ fun op hop =>
      validateOp_none _ _ op (h3 op hop).1 (h3 op hop).2.1 (h3 op hop).2.2

/-- C9 witness: a small in-range one-gate circuit validates with no error. -/
theorem c9_validate_witness :
    ValidateCircuit ⟨2, 1, [⟨hGate, [0], -1, 0, 0⟩], 1, 0⟩ = none :=
  (c9_validate_circuit ⟨2, 1, [⟨hGate, [0], -1, 0, 0⟩], 1, 0⟩).2.2
    (by decide) (by decide) (by decide)

/-! ## Claim C7: the serial strategy -/

theorem runSerialLoop_append {ε α : Type} (f : Nat → Except ε α) (hist : Multiset α)
    (l1 l2 : List Nat) (h : ∀ i ∈ l1, (f i).isOk = true) :
    runSerialLoop f hist (l1 ++ l2) =
      runSerialLoop f (hist + ↑(l1.filterMap fun i => (f i).toOption)) l2 := by
  induction l1 generalizing hist with
  | nil => simp
  | cons i rest ih =>
    have hi := h i (by simp)
    cases hfi : f i with
    | error e => rw [hfi] at hi; simp [Except.isOk, Except.toBool] at hi
    | ok a =>
      have hms : hist + ↑((i :: rest).filterMap fun j => (f j).toOption) =
          (a ::ₘ hist) + ↑(rest.filterMap fun j => (f j).toOption) := by
        rw [List.filterMap_cons, hfi]
        show hist + ↑(a :: rest.filterMap fun j => (f j).toOption) = _
        rw [← Multiset.cons_coe, Multiset.add_cons, Multiset.cons_add]
      rw [List.cons_append, runSerialLoop, hfi]
      show runSerialLoop f (a ::ₘ hist) (rest ++ l2) = _
      rw [ih _ fun j hj => h j (by simp [hj]), hms]

theorem runSerialLoop_all_ok {ε α : Type} (f : Nat → Except ε α) (hist : Multiset α)
    (l : List Nat) (h : ∀ i ∈ l, (f i).isOk = true) :
    runSerialLoop f hist l = (hist + ↑(l.filterMap fun i => (f i).toOption), none) := by
  have := runSerialLoop_append f hist l [] h
  rw [List.append_nil] at this
  rw [this, runSerialLoop]

theorem runSerialLoop_first_error {ε α : Type} (f : Nat → Except ε α) (hist : Multiset α)
    (l1 : List Nat) (i : Nat) (l2 : List Nat) (e : ε)
    (h1 : ∀ j ∈ l1, (f j).isOk = true) (he : f i = .error e) :
    runSerialLoop f hist (l1 ++ i :: l2) =
      (hist + ↑(l1.filterMap fun j => (f j).toOption), some (i + 1, e)) := by
  rw [runSerialLoop_append f hist l1 (i :: l2) h1, runSerialLoop, he]

theorem filterMap_toOption_length {ε α : Type} (f : Nat → Except ε α) (l : List Nat)
    (h : ∀ i ∈ l, (f i).isOk = true) :
    (l.filterMap fun i => (f i).toOption).length = l.length := by
  induction l with
  | nil => rfl
  | cons i rest ih =>
    have hi := h i (by simp)
    cases hfi : f i with
    | error e => rw [hfi] at hi; simp [Except.isOk, Except.toBool] at hi
    | ok a =>
      rw [List.filterMap_cons, hfi]
      show (a :: rest.filterMap fun j => (f j).toOption).length = rest.length + 1
      rw [List.length_cons, ih fun j hj => h j (by simp [hj])]

theorem range_split (k n : Nat) (h : k < n) :
    List.range n = List.range k ++ k :: List.range' (k + 1) (n - (k + 1)) := by
  rw [List.range_eq_range', List.range_eq_range']
  have hsplit : List.range' 0 k ++ List.range' k (n - k) = List.range' 0 n := by
    have happ := List.range'_append 0 k (n - k) 1
    simp only [Nat.one_mul, Nat.zero_add] at happ
    rw [happ]
    congr 1
    omega
  rw [← hsplit]
  congr 1
  have h3 : n - k = (n - (k + 1)) + 1 := by omega
  rw [h3]
  rfl

/-- C7: the serial strategy (RunSerial of src/unnamed/part_008, identically
qc/simulator/itsu/itsu_serial.go) runs shots one at a time in index order.
If the first failure occurs at 1-based shot k+1 (all shots before index k
succeed and shot index k fails with e), it stops and returns the error
wrapped with the 1-based ordinal k+1 together with the histogram of exactly
the k successful outcomes accumulated so far; if no shot fails, it returns
no error and a histogram whose counts sum to the shot count. -/
theorem c7_run_serial {ε α : Type} (shots : Nat) (f : Nat → Except ε α) :
    (∀ (k : Nat) (e : ε), k < shots → (∀ i, i < k → (f i).isOk = true) →
      f k = .error e →
      RunSerial shots f =
        (↑((List.range k).filterMap fun i => (f i).toOption), some (k + 1, e)) ∧
      (RunSerial shots f).1.card = k) ∧
    ((∀ i, i < shots → (f i).isOk = true) →
      (RunSerial shots f).2 = none ∧ (RunSerial shots f).1.card = shots) := by
  constructor
  · intro k e hk hok he
    have hmem : ∀ j ∈ List.range k, (f j).isOk = true := fun j hj =>
      hok j (List.mem_range.mp hj)
    have hres : RunSerial shots f =
        (↑((List.range k).filterMap fun i => (f i).toOption), some (k + 1, e)) := by
      rw [RunSerial, range_split k shots hk,
        runSerialLoop_first_error f 0 (List.range k) k _ e hmem he, zero_add]
    refine ⟨hres, ?_⟩
    rw [hres]
    simp only [Multiset.coe_card]
    rw [filterMap_toOption_length f _ hmem, List.length_range]
  · intro hall
    have hmem : ∀ j ∈ List.range shots, (f j).isOk = true := fun j hj =>
      hall j (List.mem_range.mp hj)
    have hres : RunSerial shots f =
        (↑((List.range shots).filterMap fun i => (f i).toOption), none) := by
      rw [RunSerial, runSerialLoop_all_ok f 0 _ hmem, zero_add]
    rw [hres]
    refine ⟨rfl, ?_⟩
    simp only [Multiset.coe_card]
    rw [filterMap_toOption_length f _ hmem, List.length_range]

/-- C7 witness: with five requested shots and the probe backend failing
first at 1-based shot 3, the serial strategy returns the two accumulated
outcomes and the wrapped ordinal 3. -/
theorem c7_run_serial_witness :
    (RunSerial 5 serialProbe =
      (↑((List.range 2).filterMap fun i => (serialProbe i).toOption), some (3, "boom")) ∧
      (RunSerial 5 serialProbe).1.card = 2) ∧
    ((RunSerial 2 serialProbe).2 = none ∧ (RunSerial 2 serialProbe).1.card = 2) :=
  ⟨(c7_run_serial 5 serialProbe).1 2 "boom" (by decide) (by decide) (by decide),
   (c7_run_serial 2 serialProbe).2 (by decide)⟩

/-! ## Claim C4: AddGate failure modes -/

theorem checkGateAux_ok (qubits : Nat) (qs seen : List Int)
    (hrange : ∀ q ∈ qs, 0 ≤ q ∧ q < (qubits : Int)) (hnd : qs.Nodup)
    (hdisj : ∀ q ∈ qs, q ∉ seen) :
    checkGateAux qubits seen qs = none := by
  induction qs generalizing seen with
  | nil => rfl
  | cons q rest ih =>
    have hq := hrange q (by simp)
    rw [checkGateAux, if_neg (by omega), if_neg (hdisj q (by simp))]
    refine ih (q :: seen) (fun x hx => hrange x (by simp [hx])) (List.Nodup.of_cons hnd) ?_
    intro x hx
    simp only [List.mem_cons, not_or]
    exact ⟨fun hxq => (List.nodup_cons.mp hnd).1 (hxq ▸ hx),
           hdisj x (by simp [hx])⟩

theorem checkGateAux_bad (qubits : Nat) (qs seen : List Int) (hnd : qs.Nodup)
    (hdisj : ∀ q ∈ qs, q ∉ seen)
    (hbad : ∃ q ∈ qs, q < 0 ∨ (qubits : Int) ≤ q) :
    checkGateAux qubits seen qs = some .badQubit := by
  induction qs generalizing seen with
  | nil => simp at hbad
  | cons q rest ih =>
    by_cases hq : q < 0 ∨ (qubits : Int) ≤ q
    · rw [checkGateAux, if_pos hq]
    · rw [checkGateAux, if_neg hq, if_neg (hdisj q (by simp))]
      refine ih (q :: seen) (List.Nodup.of_cons hnd) ?_ ?_
      · intro x hx
        simp only [List.mem_cons, not_or]
        exact ⟨fun hxq => (List.nodup_cons.mp hnd).1 (hxq ▸ hx),
               hdisj x (by simp [hx])⟩
      · rcases hbad with ⟨x, hxmem, hxbad⟩
        rcases List.mem_cons.mp hxmem with hxq | hxr
        · exact absurd (hxq ▸ hxbad) hq
        · exact ⟨x, hxr, hxbad⟩

theorem checkGateAux_dup (qubits : Nat) (qs seen : List Int)
    (hrange : ∀ q ∈ qs, 0 ≤ q ∧ q < (qubits : Int))
    (hdup : ¬qs.Nodup ∨ ∃ q ∈ qs, q ∈ seen) :
    checkGateAux qubits seen qs = some .duplicateQubit := by
  induction qs generalizing seen with
  | nil =>
    rcases hdup with hd | ⟨q, hq, _⟩
    · exact absurd List.nodup_nil hd
    · simp at hq
  | cons q rest ih =>
    have hq := hrange q (by simp)
    rw [checkGateAux, if_neg (by omega)]
    by_cases hseen : q ∈ seen
    · rw [if_pos hseen]
    · rw [if_neg hseen]
      refine ih (q :: seen) (fun x hx => hrange x (by simp [hx])) ?_
      rcases hdup with hd | ⟨x, hxmem, hxseen⟩
      · rw [List.nodup_cons] at hd
        push_neg at hd
        by_cases hqr : q ∈ rest
        · exact Or.inr ⟨q, hqr, by simp⟩
        · exact Or.inl (hd hqr)
      · rcases List.mem_cons.mp hxmem with hxq | hxr
        · exact absurd (hxq ▸ hxseen) hseen
        · exact Or.inr ⟨x, hxr, by simp [hxseen]⟩

/-- C4: AddGate fails with the Frozen error when called after a successful
validate (the valid flag is set), with SpanMismatch when the qubit-list
length differs from the gate span, with BadQubit when some index is outside
the qubit range (stated for duplicate-free lists, since with both defects
present the first offending element decides), with DuplicateQubit when the
in-range list repeats an index; on each failure AddGate returns before
mutating, so the DAG is unchanged (the error branch carries no state), and
with none of the defects present the call succeeds. -/
theorem c4_add_gate_errors (d : DAG) (g : Gate) (qs : List Int) :
    (d.valid = true → AddGate d g qs = .error .validated) ∧
    (d.valid = false → qs.length ≠ g.qubitSpan → AddGate d g qs = .error .span) ∧
    (d.valid = false → qs.length = g.qubitSpan → qs.Nodup →
      (∃ q ∈ qs, q < 0 ∨ (d.qubits : Int) ≤ q) →
      AddGate d g qs = .error .badQubit) ∧
    (d.valid = false → qs.length = g.qubitSpan →
      (∀ q ∈ qs, 0 ≤ q ∧ q < (d.qubits : Int)) → ¬qs.Nodup →
      AddGate d g qs = .error .duplicateQubit) ∧
    (d.valid = false → qs.length = g.qubitSpan →
      (∀ q ∈ qs, 0 ≤ q ∧ q < (d.qubits : Int)) → qs.Nodup →
      (AddGate d g qs).isOk = true) := by
  refine ⟨fun hv => by rw [AddGate, if_pos hv], fun hv hlen => ?_, fun hv hlen hnd hbad => ?_,
    fun hv hlen hrange hnd => ?_, fun hv hlen hrange hnd => ?_⟩
  · rw [AddGate, if_neg (by simp [hv]), checkGate, if_pos hlen]
  · rw [AddGate, if_neg (by simp [hv]), checkGate, if_neg (by omega),
      checkGateAux_bad d.qubits qs [] hnd (by simp) hbad]
  · rw [AddGate, if_neg (by simp [hv]), checkGate, if_neg (by omega),
      checkGateAux_dup d.qubits qs [] hrange (Or.inl hnd)]
  · rw [AddGate, if_neg (by simp [hv]), checkGate, if_neg (by omega),
      checkGateAux_ok d.qubits qs [] hrange hnd (by simp)]
    rfl

/-- C4 witness: on a fresh 2-qubit DAG, adding CNOT on qubits 0 and 1
succeeds, while a frozen DAG, a span mismatch, an out-of-range index and a
duplicated index each produce their error. -/
theorem c4_add_gate_witness :
    (AddGate (DAG.new 2 0) cnotG [0, 1]).isOk = true ∧
    AddGate { DAG.new 2 0 with valid := true } cnotG [0, 1] = .error .validated ∧
    AddGate (DAG.new 2 0) cnotG [0] = .error .span ∧
    AddGate (DAG.new 2 0) cnotG [0, 5] = .error .badQubit ∧
    AddGate (DAG.new 2 0) cnotG [1, 1] = .error .duplicateQubit :=
  ⟨(c4_add_gate_errors (DAG.new 2 0) cnotG [0, 1]).2.2.2.2 rfl rfl (by decide) (by decide),
   (c4_add_gate_errors { DAG.new 2 0 with valid := true } cnotG [0, 1]).1 rfl,
   (c4_add_gate_errors (DAG.new 2 0) cnotG [0]).2.1 rfl (by decide),
   (c4_add_gate_errors (DAG.new 2 0) cnotG [0, 5]).2.2.1 rfl rfl (by decide) (by decide),
   (c4_add_gate_errors (DAG.new 2 0) cnotG [1, 1]).2.2.2.1 rfl rfl (by decide) (by decide)⟩

/-! ## Claim C8: parent sets and last-writer pointers -/

theorem checkGateAux_none_imp (qubits : Nat) (qs seen : List Int)
    (h : checkGateAux qubits seen qs = none) :
    (∀ q ∈ qs, 0 ≤ q ∧ q < (qubits : Int)) ∧ qs.Nodup ∧ (∀ q ∈ qs, q ∉ seen) := by
  induction qs generalizing seen with
  | nil => exact ⟨by simp, List.nodup_nil, by simp⟩
  | cons q rest ih =>
    rw [checkGateAux] at h
    by_cases h1 : q < 0 ∨ (qubits : Int) ≤ q
    · rw [if_pos h1] at h; exact absurd h (by simp)
    · rw [if_neg h1] at h
      by_cases h2 : q ∈ seen
      · rw [if_pos h2] at h; exact absurd h (by simp)
      · rw [if_neg h2] at h
        obtain ⟨hrange, hnd, hdisj⟩ := ih (q :: seen) h
        refine ⟨?_, ?_, ?_⟩
        · intro x hx
          rcases List.mem_cons.mp hx with hxq | hxr
          · subst hxq; omega
          · exact hrange x hxr
        · rw [List.nodup_cons]
          exact ⟨fun hqr => (hdisj q hqr) (by simp), hnd⟩
        · intro x hx
          rcases List.mem_cons.mp hx with hxq | hxr
          · subst hxq; exact h2
          · intro hxseen
            exact (hdisj x hxr) (by simp [hxseen])

theorem buildEdgesStep_last (nid : Nat) (acc : EdgeAcc) (q : Int) :
    (buildEdgesStep nid acc q).last = acc.last.set q.toNat nid := by
  simp only [buildEdgesStep]
  by_cases hc : acc.last.getD q.toNat 0 ≠ 0 ∧ acc.last.getD q.toNat 0 ∉ acc.parents
  · rw [if_pos hc]
  · rw [if_neg hc]

theorem buildEdgesStep_parents (nid : Nat) (acc : EdgeAcc) (q : Int) :
    (buildEdgesStep nid acc q).parents =
      if acc.last.getD q.toNat 0 ≠ 0 ∧ acc.last.getD q.toNat 0 ∉ acc.parents then
        acc.parents ++ [acc.last.getD q.toNat 0]
      else acc.parents := by
  simp only [buildEdgesStep]
  by_cases hc : acc.last.getD q.toNat 0 ≠ 0 ∧ acc.last.getD q.toNat 0 ∉ acc.parents
  · rw [if_pos hc, if_pos hc]
  · rw [if_neg hc, if_neg hc]

theorem buildEdges_last_length (nid : Nat) (qs : List Int) (acc : EdgeAcc) :
    (buildEdges nid acc qs).last.length = acc.last.length := by
  induction qs generalizing acc with
  | nil => rfl
  | cons q rest ih =>
    rw [buildEdges, ih, buildEdgesStep_last, List.length_set]

theorem buildEdges_last_getD (nid : Nat) (qs : List Int) (acc : EdgeAcc) (i : Nat)
    (hrange : ∀ q ∈ qs, q.toNat < acc.last.length) :
    (buildEdges nid acc qs).last.getD i 0 =
      if i ∈ qs.map (fun q => q.toNat) then nid else acc.last.getD i 0 := by
  induction qs generalizing acc with
  | nil => simp [buildEdges]
  | cons q rest ih =>
    have hlen : q.toNat < acc.last.length := hrange q (by simp)
    have hrest : ∀ x ∈ rest, x.toNat < (buildEdgesStep nid acc q).last.length := by
      intro x hx
      rw [buildEdgesStep_last, List.length_set]
      exact hrange x (by simp [hx])
    rw [buildEdges, ih _ hrest, buildEdgesStep_last]
    by_cases hir : i ∈ rest.map (fun q => q.toNat)
    · simp [hir]
    · rw [if_neg hir]
      by_cases hiq : i = q.toNat
      · subst hiq
        rw [if_pos (by simp), List.getD_eq_getElem?_getD,
          List.getElem?_set_self hlen, Option.getD_some]
      · rw [if_neg (by simp [hiq, hir]), List.getD_eq_getElem?_getD,
          List.getElem?_set_ne (by omega), ← List.getD_eq_getElem?_getD]

theorem buildEdges_parents_mem (nid : Nat) (qs : List Int) (acc : EdgeAcc)
    (hnodup : (qs.map fun q => q.toNat).Nodup)
    (hrange : ∀ q ∈ qs, q.toNat < acc.last.length) (p : Nat) :
    p ∈ (buildEdges nid acc qs).parents ↔
      p ∈ acc.parents ∨ (p ≠ 0 ∧ ∃ q ∈ qs, acc.last.getD q.toNat 0 = p) := by
  induction qs generalizing acc with
  | nil => simp [buildEdges]
  | cons q rest ih =>
    have hlen : q.toNat < acc.last.length := hrange q (by simp)
    have hpair : (∀ x ∈ rest, ¬x.toNat = q.toNat) ∧ (List.map (fun x => x.toNat) rest).Nodup := by
      simpa using hnodup
    have hnodup2 : (rest.map fun x => x.toNat).Nodup := hpair.2
    have hq_rest : ∀ x ∈ rest, x.toNat ≠ q.toNat := fun x hx => hpair.1 x hx
    have hrest : ∀ x ∈ rest, x.toNat < (buildEdgesStep nid acc q).last.length := by
      intro x hx
      rw [buildEdgesStep_last, List.length_set]
      exact hrange x (by simp [hx])
    have hread : ∀ x ∈ rest,
        (buildEdgesStep nid acc q).last.getD x.toNat 0 = acc.last.getD x.toNat 0 := by
      intro x hx
      rw [buildEdgesStep_last, List.getD_eq_getElem?_getD,
        List.getElem?_set_ne (Ne.symm (hq_rest x hx)), ← List.getD_eq_getElem?_getD]
    rw [buildEdges, ih _ hnodup2 hrest, buildEdgesStep_parents]
    by_cases hc : acc.last.getD q.toNat 0 ≠ 0 ∧ acc.last.getD q.toNat 0 ∉ acc.parents
    · rw [if_pos hc]
      constructor
      · rintro (hmem | ⟨hpnz, x, hx, hrd⟩)
        · rcases List.mem_append.mp hmem with hold | hnew
          · exact Or.inl hold
          · simp only [List.mem_singleton] at hnew
            exact Or.inr ⟨hnew ▸ hc.1, q, by simp, hnew.symm⟩
        · rw [hread x hx] at hrd
          exact Or.inr ⟨hpnz, x, by simp [hx], hrd⟩
      · rintro (hold | ⟨hpnz, x, hx, hrd⟩)
        · exact Or.inl (List.mem_append.mpr (Or.inl hold))
        · rcases List.mem_cons.mp hx with hxq | hxr
          · rw [hxq] at hrd
            exact Or.inl (List.mem_append.mpr (Or.inr (by simp [hrd.symm])))
          · exact Or.inr ⟨hpnz, x, hxr, by rw [hread x hxr]; exact hrd⟩
    · rw [if_neg hc]
      push_neg at hc
      constructor
      · rintro (hold | ⟨hpnz, x, hx, hrd⟩)
        · exact Or.inl hold
        · rw [hread x hx] at hrd
          exact Or.inr ⟨hpnz, x, by simp [hx], hrd⟩
      · rintro (hold | ⟨hpnz, x, hx, hrd⟩)
        · exact Or.inl hold
        · rcases List.mem_cons.mp hx with hxq | hxr
          · rw [hxq] at hrd
            have hnz : acc.last.getD q.toNat 0 ≠ 0 := by rw [hrd]; exact hpnz
            exact Or.inl (hrd ▸ hc hnz)
          · exact Or.inr ⟨hpnz, x, hxr, by rw [hread x hxr]; exact hrd⟩

theorem buildEdges_parents_nodup (nid : Nat) (qs : List Int) (acc : EdgeAcc)
    (h : acc.parents.Nodup) :
    (buildEdges nid acc qs).parents.Nodup := by
  induction qs generalizing acc with
  | nil => exact h
  | cons q rest ih =>
    rw [buildEdges]
    refine ih _ ?_
    rw [buildEdgesStep_parents]
    by_cases hc : acc.last.getD q.toNat 0 ≠ 0 ∧ acc.last.getD q.toNat 0 ∉ acc.parents
    · rw [if_pos hc]
      exact List.Nodup.append h (by simp) (by simpa using hc.2)
    · rw [if_neg hc]
      exact h

/-- C8 amended: for the AddGate of qc/dag/dag.go (with the parentSet) and
for AddMeasure, every successful call appends a node whose parent list is
duplicate-free and contains exactly the nonzero last-writer ids of the
touched qubits at the moment of addition, and afterwards the last-writer
pointer of every touched qubit is the new node's id.  The historical
AddGate of qc/dag/add.go violates the duplicate-freeness (see the
counterexample): it appends the same last writer once per touched qubit. -/
theorem c8_parent_sets (d : DAG) (hlen : d.last.length = d.qubits) :
    (∀ (g : Gate) (qs : List Int) (d2 : DAG), AddGate d g qs = .ok d2 →
      ∃ n : Node, d2.nodes.getLast? = some n ∧ n.id = d.nextId ∧ n.parents.Nodup ∧
        (∀ p : Nat, p ∈ n.parents ↔ p ≠ 0 ∧ ∃ q ∈ qs, d.last.getD q.toNat 0 = p) ∧
        (∀ q ∈ qs, d2.last.getD q.toNat 0 = d.nextId)) ∧
    (∀ (q c : Int) (d3 : DAG), AddMeasure d q c = .ok d3 →
      ∃ n : Node, d3.nodes.getLast? = some n ∧ n.id = d.nextId ∧ n.parents.Nodup ∧
        (∀ p : Nat, p ∈ n.parents ↔ p ≠ 0 ∧ d.last.getD q.toNat 0 = p) ∧
        d3.last.getD q.toNat 0 = d.nextId) := by
  constructor
  · intro g qs d2 h
    by_cases hv : d.valid
    · rw [AddGate, if_pos hv] at h; exact absurd h (by simp)
    · rw [AddGate, if_neg hv] at h
      cases hchk : checkGate d.qubits g qs with
      | some e => rw [hchk] at h; exact absurd h (by simp)
      | none =>
        rw [hchk] at h
        have haux : checkGateAux d.qubits [] qs = none := by
          rw [checkGate] at hchk
          by_cases hl : qs.length ≠ g.qubitSpan
          · rw [if_pos hl] at hchk; exact absurd hchk (by simp)
          · rw [if_neg hl] at hchk; exact hchk
        obtain ⟨hrange, hnd, -⟩ := checkGateAux_none_imp d.qubits qs [] haux
        have hd2 := (Except.ok.inj h).symm
        have hrange2 : ∀ x ∈ qs, x.toNat < (⟨d.nodes, d.byQ, d.last, []⟩ : EdgeAcc).last.length := by
          intro x hx
          have := hrange x hx
          simp only [hlen]
          omega
        have hmapnd : (qs.map fun x => x.toNat).Nodup := by
          refine List.Nodup.map_on ?_ hnd
          intro x hx y hy he
          have hx2 := hrange x hx
          have hy2 := hrange y hy
          omega
        refine ⟨⟨d.nextId, g, qs, -1,
          (buildEdges d.nextId ⟨d.nodes, d.byQ, d.last, []⟩ qs).parents, []⟩, ?_, rfl, ?_, ?_, ?_⟩
        · rw [hd2]
          exact List.getLast?_concat _
        · exact buildEdges_parents_nodup _ _ _ List.nodup_nil
        · intro p
          rw [buildEdges_parents_mem d.nextId qs _ hmapnd hrange2 p]
          simp
        · intro q hq
          rw [hd2]
          show (buildEdges d.nextId ⟨d.nodes, d.byQ, d.last, []⟩ qs).last.getD q.toNat 0 = d.nextId
          rw [buildEdges_last_getD d.nextId qs _ _ hrange2,
            if_pos (List.mem_map_of_mem (fun x => x.toNat) hq)]
  · intro q c d3 h
    by_cases hv : d.valid
    · rw [AddMeasure, if_pos hv] at h; exact absurd h (by simp)
    · rw [AddMeasure, if_neg hv] at h
      by_cases hq : q < 0 ∨ (d.qubits : Int) ≤ q
      · rw [if_pos hq] at h; exact absurd h (by simp)
      · rw [if_neg hq] at h
        by_cases hcb : c < 0 ∨ (d.clbits : Int) ≤ c
        · rw [if_pos hcb] at h; exact absurd h (by simp)
        · rw [if_neg hcb] at h
          have hd3 := (Except.ok.inj h).symm
          have hqlen : q.toNat < d.last.length := by
            rw [hlen]; omega
          refine ⟨⟨d.nextId, measG, [q], c,
            if d.last.getD q.toNat 0 ≠ 0 then [d.last.getD q.toNat 0] else [], []⟩,
            ?_, rfl, ?_, ?_, ?_⟩
          · rw [hd3]
            exact List.getLast?_concat _
          · by_cases hp : d.last.getD q.toNat 0 ≠ 0
            · rw [if_pos hp]; exact List.nodup_singleton _
            · rw [if_neg hp]; exact List.nodup_nil
          · intro p
            by_cases hp : d.last.getD q.toNat 0 ≠ 0
            · rw [if_pos hp]
              constructor
              · intro hmem
                simp only [List.mem_singleton] at hmem
                exact ⟨hmem ▸ hp, hmem.symm⟩
              · rintro ⟨hpnz, hrd⟩
                exact List.mem_singleton.mpr hrd.symm
            · rw [if_neg hp]
              push_neg at hp
              constructor
              · intro hmem; simp at hmem
              · rintro ⟨hpnz, hrd⟩
                rw [hp] at hrd
                exact absurd hrd.symm hpnz
          · rw [hd3]
            show (d.last.set q.toNat d.nextId).getD q.toNat 0 = d.nextId
            rw [List.getD_eq_getElem?_getD, List.getElem?_set_self hqlen, Option.getD_some]

/-- C8 witness: on the one-gate DAG obtained by adding CNOT(0,1) to a fresh
2-qubit DAG, a second CNOT(0,1) (whose two qubits share last writer 1) gets
parent list [1] with no duplicate, and both wires' last-writer pointers move
to the new node 2. -/
theorem c8_parent_sets_witness :
    ∃ n : Node,
      (⟨2, 0, [⟨1, cnotG, [0, 1], -1, [], [2]⟩, ⟨2, cnotG, [0, 1], -1, [1], []⟩],
        [[1, 2], [1, 2]], [2, 2], false, 3⟩ : DAG).nodes.getLast? = some n ∧
      n.id = 2 ∧ n.parents.Nodup ∧
      (∀ p : Nat, p ∈ n.parents ↔
        p ≠ 0 ∧ ∃ q ∈ ([0, 1] : List Int),
          (⟨2, 0, [⟨1, cnotG, [0, 1], -1, [], []⟩], [[1], [1]], [1, 1], false, 2⟩ : DAG).last.getD q.toNat 0 = p) ∧
      (∀ q ∈ ([0, 1] : List Int),
        (⟨2, 0, [⟨1, cnotG, [0, 1], -1, [], [2]⟩, ⟨2, cnotG, [0, 1], -1, [1], []⟩],
          [[1, 2], [1, 2]], [2, 2], false, 3⟩ : DAG).last.getD q.toNat 0 = 2) :=
  (c8_parent_sets ⟨2, 0, [⟨1, cnotG, [0, 1], -1, [], []⟩], [[1], [1]], [1, 1], false, 2⟩
    (by decide)).1 cnotG [0, 1] _ (by decide)

/-- C8 counterexample: the historical AddGate (qc/dag/add.go lines 22-30)
records a duplicate parent entry when the two touched qubits share the same
last writer.  Adding CNOT(0,1) twice to a fresh 2-qubit DAG gives the second
node the parent list [1, 1], which is not duplicate-free, refuting the
claim's "no duplicate parent entries even when several touched qubits share
the same last writer" for that variant. -/
theorem c8_duplicate_parents_counterexample :
    AddGateAlt (DAG.new 2 0) cnotG [0, 1] =
      .ok ⟨2, 0, [⟨1, cnotG, [0, 1], -1, [], []⟩], [[1], [1]], [1, 1], false, 2⟩ ∧
    AddGateAlt ⟨2, 0, [⟨1, cnotG, [0, 1], -1, [], []⟩], [[1], [1]], [1, 1], false, 2⟩
        cnotG [0, 1] =
      .ok ⟨2, 0, [⟨1, cnotG, [0, 1], -1, [], [2, 2]⟩, ⟨2, cnotG, [0, 1], -1, [1, 1], []⟩],
        [[1, 2], [1, 2]], [2, 2], false, 3⟩ ∧
    ¬([1, 1] : List Nat).Nodup := by
  refine ⟨by decide, by decide, by decide⟩

/-! ## Layout analysis: the nodeTimeStep map on topologically ordered input

d.Operations() hands FromDAG the nodes in a topological order computed by
Kahn's algorithm from Go map iteration, so every node's parents appear
before it and ids are unique.  ParentsBeforeB captures exactly that
parents-before property. -/

theorem parentsBeforeB_mem (seen : List Nat) (nodes : List Node)
    (h : ParentsBeforeB seen nodes = true) :
    ∀ n ∈ nodes, ∀ p ∈ n.parents, p ∈ seen ∨ ∃ m ∈ nodes, m.id = p := by
  induction nodes generalizing seen with
  | nil => simp
  | cons x rest ih =>
    rw [ParentsBeforeB, Bool.and_eq_true] at h
    intro n hn p hp
    rcases List.mem_cons.mp hn with hnx | hnr
    · subst hnx
      have := List.all_eq_true.mp h.1 p hp
      exact Or.inl (by simpa using this)
    · rcases ih (x.id :: seen) h.2 n hnr p hp with hseen | ⟨m, hm, hmid⟩
      · rcases List.mem_cons.mp hseen with hpx | hps
        · exact Or.inr ⟨x, by simp, hpx.symm⟩
        · exact Or.inl hps
      · exact Or.inr ⟨m, by simp [hm], hmid⟩

theorem tsLookup_cons (k : Nat) (v : Int) (m : List (Nat × Int)) (p : Nat) (h : k ≠ p) :
    tsLookup ((k, v) :: m) p = tsLookup m p := by
  rw [tsLookup, if_neg h]

theorem tsMapAux_stable (nodes : List Node) (m : List (Nat × Int)) (p : Nat)
    (h : p ∉ nodes.map Node.id) :
    tsLookup (tsMapAux m nodes) p = tsLookup m p := by
  induction nodes generalizing m with
  | nil => rfl
  | cons x rest ih =>
    have hh : ¬p = x.id ∧ ∀ y ∈ rest, ¬y.id = p := by simpa using h
    have h2 : p ∉ rest.map Node.id := by
      simp only [List.mem_map, not_exists, not_and]
      intro y hy
      exact hh.2 y hy
    rw [tsMapAux, ih _ h2]
    exact tsLookup_cons _ _ _ _ fun he => hh.1 he.symm

theorem tsMapAux_isSome_mono (nodes : List Node) (m : List (Nat × Int)) (p : Nat)
    (h : (tsLookup m p).isSome = true) :
    (tsLookup (tsMapAux m nodes) p).isSome = true := by
  induction nodes generalizing m with
  | nil => exact h
  | cons x rest ih =>
    rw [tsMapAux]
    refine ih _ ?_
    rw [tsLookup]
    by_cases hx : x.id = p
    · rw [if_pos hx]; rfl
    · rw [if_neg hx]; exact h

theorem tsMapAux_mem_isSome (nodes : List Node) (m : List (Nat × Int)) (n : Node)
    (h : n ∈ nodes) :
    (tsLookup (tsMapAux m nodes) n.id).isSome = true := by
  induction nodes generalizing m with
  | nil => simp at h
  | cons x rest ih =>
    rw [tsMapAux]
    rcases List.mem_cons.mp h with hnx | hnr
    · subst hnx
      refine tsMapAux_isSome_mono _ _ _ ?_
      rw [tsLookup, if_pos rfl]
      rfl
    · exact ih _ hnr

theorem tsMapAux_append (l : List Node) (n : Node) (m : List (Nat × Int)) :
    tsMapAux m (l ++ [n]) =
      (n.id, layoutStep (tsMapAux m l) n.parents) :: tsMapAux m l := by
  induction l generalizing m with
  | nil => rfl
  | cons x rest ih => rw [List.cons_append, tsMapAux, ih, tsMapAux]

theorem layoutStep_eq_stepFold (m : List (Nat × Int)) (parents : List Nat) :
    layoutStep m parents = stepFold m (-1) parents + 1 := rfl

theorem stepFold_init_le (m : List (Nat × Int)) (parents : List Nat) (i : Int) :
    i ≤ stepFold m i parents := by
  induction parents generalizing i with
  | nil => exact le_refl i
  | cons p rest ih =>
    rw [stepFold, List.foldl_cons]
    refine le_trans ?_ (ih _)
    cases tsLookup m p with
    | none => exact le_refl i
    | some s =>
      show i ≤ if s > i then s else i
      by_cases hs : s > i
      · rw [if_pos hs]; omega
      · rw [if_neg hs]

theorem stepFold_mem_le (m : List (Nat × Int)) (parents : List Nat) (i : Int)
    (p : Nat) (sp : Int) (hp : p ∈ parents) (hlk : tsLookup m p = some sp) :
    sp ≤ stepFold m i parents := by
  induction parents generalizing i with
  | nil => simp at hp
  | cons x rest ih =>
    rw [stepFold, List.foldl_cons]
    rcases List.mem_cons.mp hp with hpx | hpr
    · subst hpx
      rw [hlk]
      refine le_trans ?_ (stepFold_init_le m rest _)
      show sp ≤ if sp > i then sp else i
      by_cases hs : sp > i
      · rw [if_pos hs]
      · rw [if_neg hs]; omega
    · exact ih _ hpr

theorem stepFold_attained (m : List (Nat × Int)) (parents : List Nat) (i : Int) :
    stepFold m i parents = i ∨
      ∃ p ∈ parents, tsLookup m p = some (stepFold m i parents) := by
  induction parents generalizing i with
  | nil => exact Or.inl rfl
  | cons x rest ih =>
    rw [stepFold, List.foldl_cons]
    cases hx : tsLookup m x with
    | none =>
      rcases ih i with he | ⟨p, hp, hlk⟩
      · exact Or.inl he
      · exact Or.inr ⟨p, by simp [hp], hlk⟩
    | some s =>
      show stepFold m (if s > i then s else i) rest = i ∨
        ∃ p ∈ x :: rest, tsLookup m p = some (stepFold m (if s > i then s else i) rest)
      by_cases hs : s > i
      · rw [if_pos hs]
        rcases ih s with he | ⟨p, hp, hlk⟩
        · exact Or.inr ⟨x, by simp, by rw [hx, he]⟩
        · exact Or.inr ⟨p, by simp [hp], hlk⟩
      · rw [if_neg hs]
        rcases ih i with he | ⟨p, hp, hlk⟩
        · exact Or.inl he
        · exact Or.inr ⟨p, by simp [hp], hlk⟩

theorem stepFold_congr (m1 m2 : List (Nat × Int)) (parents : List Nat)
    (h : ∀ p ∈ parents, tsLookup m1 p = tsLookup m2 p) (i : Int) :
    stepFold m1 i parents = stepFold m2 i parents := by
  induction parents generalizing i with
  | nil => rfl
  | cons x rest ih =>
    rw [stepFold, stepFold, List.foldl_cons, List.foldl_cons, h x (by simp)]
    show stepFold m1 _ rest = stepFold m2 _ rest
    exact ih (fun p hp => h p (by simp [hp])) _

theorem layoutStep_congr (m1 m2 : List (Nat × Int)) (parents : List Nat)
    (h : ∀ p ∈ parents, tsLookup m1 p = tsLookup m2 p) :
    layoutStep m1 parents = layoutStep m2 parents := by
  rw [layoutStep_eq_stepFold, layoutStep_eq_stepFold,
    stepFold_congr m1 m2 parents h (-1)]

theorem layoutStep_nonneg (m : List (Nat × Int)) (parents : List Nat) :
    0 ≤ layoutStep m parents := by
  rw [layoutStep_eq_stepFold]
  have := stepFold_init_le m parents (-1)
  omega

theorem layoutStep_ge (m : List (Nat × Int)) (parents : List Nat) (p : Nat) (sp : Int)
    (hp : p ∈ parents) (hlk : tsLookup m p = some sp) :
    sp + 1 ≤ layoutStep m parents := by
  rw [layoutStep_eq_stepFold]
  have := stepFold_mem_le m parents (-1) p sp hp hlk
  omega

theorem tsMapAux_nonneg (nodes : List Node) (m : List (Nat × Int))
    (hm : ∀ p s, tsLookup m p = some s → 0 ≤ s) :
    ∀ p s, tsLookup (tsMapAux m nodes) p = some s → 0 ≤ s := by
  induction nodes generalizing m with
  | nil => exact hm
  | cons x rest ih =>
    rw [tsMapAux]
    refine ih _ ?_
    intro p s hlk
    rw [tsLookup] at hlk
    by_cases hx : x.id = p
    · rw [if_pos hx] at hlk
      have := layoutStep_nonneg m x.parents
      simp only [Option.some.injEq] at hlk
      omega
    · rw [if_neg hx] at hlk
      exact hm p s hlk

theorem tsMapAux_char (rest : List Node) (m : List (Nat × Int)) (seen : List Nat)
    (hnd : (seen ++ rest.map Node.id).Nodup)
    (hdom : ∀ p, (tsLookup m p).isSome = true ↔ p ∈ seen)
    (htopo : ParentsBeforeB seen rest = true) :
    ∀ n ∈ rest, tsLookup (tsMapAux m rest) n.id =
      some (layoutStep (tsMapAux m rest) n.parents) := by
  induction rest generalizing m seen with
  | nil => simp
  | cons x rest2 ih =>
    rw [ParentsBeforeB, Bool.and_eq_true] at htopo
    rw [List.map_cons] at hnd
    have hsplit := List.nodup_append.mp hnd
    have hx_notin_rest : x.id ∉ rest2.map Node.id := (List.nodup_cons.mp hsplit.2.1).1
    have hx_notin_seen : x.id ∉ seen := fun h => hsplit.2.2 h (by simp)
    have hseen_notin : ∀ p ∈ seen, p ∉ rest2.map Node.id := fun p hp hpids =>
      hsplit.2.2 hp (by simp [hpids])
    have hpx : ∀ p ∈ x.parents, p ∈ seen := fun p hp => by
      simpa using List.all_eq_true.mp htopo.1 p hp
    have hF : tsMapAux m (x :: rest2) =
        tsMapAux ((x.id, layoutStep m x.parents) :: m) rest2 := rfl
    have hstable : ∀ p ∈ seen,
        tsLookup (tsMapAux ((x.id, layoutStep m x.parents) :: m) rest2) p = tsLookup m p := by
      intro p hp
      rw [tsMapAux_stable rest2 _ p (hseen_notin p hp),
        tsLookup_cons _ _ _ _ fun he => hx_notin_seen (by rw [he]; exact hp)]
    have hnd2 : ((x.id :: seen) ++ rest2.map Node.id).Nodup := by
      have hperm : List.Perm (seen ++ x.id :: rest2.map Node.id)
          (x.id :: (seen ++ rest2.map Node.id)) := List.perm_middle
      exact hperm.nodup hnd
    have hdom2 : ∀ p,
        (tsLookup ((x.id, layoutStep m x.parents) :: m) p).isSome = true ↔
          p ∈ x.id :: seen := by
      intro p
      rw [tsLookup]
      by_cases hxp : x.id = p
      · rw [if_pos hxp]
        simp [hxp.symm]
      · rw [if_neg hxp]
        rw [hdom p]
        simp only [List.mem_cons]
        constructor
        · exact Or.inr
        · rintro (he | hs)
          · exact absurd he.symm hxp
          · exact hs
    intro n hn
    rcases List.mem_cons.mp hn with hnx | hnr
    · subst hnx
      have hlkx : tsLookup (tsMapAux ((n.id, layoutStep m n.parents) :: m) rest2) n.id =
          some (layoutStep m n.parents) := by
        rw [tsMapAux_stable rest2 _ n.id hx_notin_rest, tsLookup, if_pos rfl]
      rw [hF, hlkx]
      congr 1
      exact layoutStep_congr _ _ _ fun p hp => (hstable p (hpx p hp)).symm
    · rw [hF]
      exact ih _ _ hnd2 hdom2 htopo.2 n hnr

theorem layoutOpsAux_eq (rest : List Node) (m : List (Nat × Int)) (seen : List Nat)
    (hnd : (seen ++ rest.map Node.id).Nodup)
    (hdom : ∀ p, (tsLookup m p).isSome = true ↔ p ∈ seen)
    (htopo : ParentsBeforeB seen rest = true) :
    layoutOpsAux m rest = rest.map fun n =>
      ⟨n.g, n.qubits, n.cbit, (tsLookup (tsMapAux m rest) n.id).getD 0, minQubit n.qubits⟩ := by
  induction rest generalizing m seen with
  | nil => rfl
  | cons x rest2 ih =>
    rw [ParentsBeforeB, Bool.and_eq_true] at htopo
    rw [List.map_cons] at hnd
    have hsplit := List.nodup_append.mp hnd
    have hx_notin_rest : x.id ∉ rest2.map Node.id := (List.nodup_cons.mp hsplit.2.1).1
    have hx_notin_seen : x.id ∉ seen := fun h => hsplit.2.2 h (by simp)
    have hnd2 : ((x.id :: seen) ++ rest2.map Node.id).Nodup := by
      have hperm : List.Perm (seen ++ x.id :: rest2.map Node.id)
          (x.id :: (seen ++ rest2.map Node.id)) := List.perm_middle
      exact hperm.nodup hnd
    have hdom2 : ∀ p,
        (tsLookup ((x.id, layoutStep m x.parents) :: m) p).isSome = true ↔
          p ∈ x.id :: seen := by
      intro p
      rw [tsLookup]
      by_cases hxp : x.id = p
      · rw [if_pos hxp]
        simp [hxp.symm]
      · rw [if_neg hxp]
        rw [hdom p]
        simp only [List.mem_cons]
        constructor
        · exact Or.inr
        · rintro (he | hs)
          · exact absurd he.symm hxp
          · exact hs
    have hlkx : tsLookup (tsMapAux ((x.id, layoutStep m x.parents) :: m) rest2) x.id =
        some (layoutStep m x.parents) := by
      rw [tsMapAux_stable rest2 _ x.id hx_notin_rest, tsLookup, if_pos rfl]
    rw [layoutOpsAux, List.map_cons]
    congr 1
    · show (⟨x.g, x.qubits, x.cbit, layoutStep m x.parents, minQubit x.qubits⟩ : Operation) = _
      rw [show tsMapAux m (x :: rest2) =
        tsMapAux ((x.id, layoutStep m x.parents) :: m) rest2 from rfl, hlkx]
      rfl
    · exact ih _ _ hnd2 hdom2 htopo.2

theorem minFold_mem (l : List Int) (a : Int) :
    l.foldl (fun mn x => if x < mn then x else mn) a ∈ a :: l := by
  induction l generalizing a with
  | nil => simp
  | cons x t ih =>
    rw [List.foldl_cons]
    rcases List.mem_cons.mp (ih (if x < a then x else a)) with h | h
    · rw [h]
      by_cases hx : x < a
      · rw [if_pos hx]; simp
      · rw [if_neg hx]; simp
    · simp [h]

theorem minFold_le (l : List Int) (a : Int) :
    l.foldl (fun mn x => if x < mn then x else mn) a ≤ a ∧
    ∀ q ∈ l, l.foldl (fun mn x => if x < mn then x else mn) a ≤ q := by
  induction l generalizing a with
  | nil => simp
  | cons x t ih =>
    rw [List.foldl_cons]
    have hinit := (ih (if x < a then x else a)).1
    have hmem := (ih (if x < a then x else a)).2
    refine ⟨?_, ?_⟩
    · refine le_trans hinit ?_
      by_cases hx : x < a
      · rw [if_pos hx]; omega
      · rw [if_neg hx]
    · intro q hq
      rcases List.mem_cons.mp hq with hqx | hqt
      · subst hqx
        refine le_trans hinit ?_
        by_cases hx : q < a
        · rw [if_pos hx]
        · rw [if_neg hx]; omega
      · exact hmem q hqt

theorem minQubit_spec (l : List Int) (h : l ≠ []) :
    minQubit l ∈ l ∧ ∀ q ∈ l, minQubit l ≤ q := by
  cases l with
  | nil => exact absurd rfl h
  | cons x t =>
    rw [minQubit]
    refine ⟨minFold_mem t x, ?_⟩
    intro q hq
    rcases List.mem_cons.mp hq with hqx | hqt
    · subst hqx
      exact (minFold_le t q).1
    · exact (minFold_le t x).2 q hqt

theorem ts_unique (nodes1 nodes2 : List Node) (hperm : nodes1.Perm nodes2)
    (hnd1 : (nodes1.map Node.id).Nodup) (ht1 : ParentsBeforeB [] nodes1 = true)
    (ht2 : ParentsBeforeB [] nodes2 = true)
    (hsm : ∀ n ∈ nodes1, ∀ p ∈ n.parents, p < n.id) :
    ∀ n ∈ nodes1,
      tsLookup (tsMapAux [] nodes1) n.id = tsLookup (tsMapAux [] nodes2) n.id := by
  have hnd2 : (nodes2.map Node.id).Nodup := ((hperm.map Node.id).nodup_iff).mp hnd1
  suffices H : ∀ k, ∀ n ∈ nodes1, n.id < k →
      tsLookup (tsMapAux [] nodes1) n.id = tsLookup (tsMapAux [] nodes2) n.id by
    intro n hn
    exact H (n.id + 1) n hn (by omega)
  intro k
  induction k with
  | zero => intro n hn h; omega
  | succ k ihk =>
    intro n hn hlt
    by_cases hk : n.id < k
    · exact ihk n hn hk
    · have hchar1 := tsMapAux_char nodes1 [] [] (by simpa using hnd1)
        (by intro p; rw [tsLookup]; simp) ht1 n hn
      have hn2 : n ∈ nodes2 := hperm.subset hn
      have hchar2 := tsMapAux_char nodes2 [] [] (by simpa using hnd2)
        (by intro p; rw [tsLookup]; simp) ht2 n hn2
      rw [hchar1, hchar2]
      congr 1
      refine layoutStep_congr _ _ _ ?_
      intro p hp
      have hppos := hsm n hn p hp
      have hpk : p < k := by omega
      rcases parentsBeforeB_mem [] nodes1 ht1 n hn p hp with hfalse | ⟨mnode, hm, hmid⟩
      · simp at hfalse
      · have hres := ihk mnode hm (by rw [hmid]; exact hpk)
        rw [hmid] at hres
        exact hres

/-! ## Stable sort by (time_step, line) -/

theorem opLess_iff (a b : Operation) :
    opLess a b = true ↔
      a.timeStep < b.timeStep ∨ (a.timeStep = b.timeStep ∧ a.line < b.line) := by
  by_cases h : a.timeStep = b.timeStep <;> simp [opLess, h]

theorem leOp_iff (a b : Operation) :
    leOp a b ↔
      a.timeStep < b.timeStep ∨ (a.timeStep = b.timeStep ∧ a.line ≤ b.line) := by
  rw [leOp, ← Bool.not_eq_true, opLess_iff]
  omega

theorem opLess_key_ne (a b : Operation) (h : opLess a b = true) : opKey a ≠ opKey b := by
  rw [opLess_iff] at h
  rw [opKey, opKey, Ne, Prod.mk.injEq]
  omega

theorem opLess_asymm (a b : Operation) (h : opLess a b = true) : opLess b a = false := by
  rw [opLess_iff] at h
  rw [← Bool.not_eq_true, opLess_iff]
  omega

theorem leOp_keyne_lt (a b : Operation) (h1 : leOp a b) (h2 : opKey a ≠ opKey b) :
    opLess a b = true := by
  rw [leOp_iff] at h1
  rw [opKey, opKey, Ne, Prod.mk.injEq] at h2
  rw [opLess_iff]
  omega

theorem filter_orderedInsert_key (k : Int × Int) (a : Operation) (l : List Operation) :
    (List.orderedInsert leOp a l).filter (fun o => decide (opKey o = k)) =
      if opKey a = k then a :: l.filter (fun o => decide (opKey o = k))
      else l.filter (fun o => decide (opKey o = k)) := by
  induction l with
  | nil =>
    rw [List.orderedInsert]
    by_cases hk : opKey a = k
    · rw [if_pos hk]
      simp [hk]
    · rw [if_neg hk]
      simp [hk]
  | cons b t ih =>
    rw [List.orderedInsert]
    by_cases hr : leOp a b
    · rw [if_pos hr]
      by_cases hk : opKey a = k
      · rw [if_pos hk]
        simp [List.filter_cons, hk]
      · rw [if_neg hk]
        simp [List.filter_cons, hk]
    · rw [if_neg hr]
      have hlt : opLess b a = true := by
        rw [leOp] at hr
        cases h : opLess b a with
        | false => exact absurd h hr
        | true => rfl
      have hkb : opKey b ≠ opKey a := opLess_key_ne b a hlt
      rw [List.filter_cons, List.filter_cons, ih]
      by_cases hk : opKey a = k
      · have hbk : ¬(opKey b = k) := fun hbe => hkb (by rw [hbe, hk])
        simp [hk, hbk]
      · by_cases hbk : opKey b = k
        · simp [hk, hbk]
        · simp [hk, hbk]

theorem filter_insertionSort_key (k : Int × Int) (l : List Operation) :
    (List.insertionSort leOp l).filter (fun o => decide (opKey o = k)) =
      l.filter (fun o => decide (opKey o = k)) := by
  induction l with
  | nil => rfl
  | cons a t ih =>
    rw [List.insertionSort, filter_orderedInsert_key, List.filter_cons]
    by_cases hk : opKey a = k
    · rw [if_pos hk, ih]
      simp [hk]
    · rw [if_neg hk, ih]
      simp [hk]

theorem sorted_key_unique (l1 : List Operation) : ∀ l2 : List Operation, l1.Perm l2 →
    l1.Pairwise (fun a b => opLess a b = true) →
    l2.Pairwise (fun a b => opLess a b = true) → l1 = l2 := by
  induction l1 with
  | nil =>
    intro l2 hp _ _
    exact hp.nil_eq
  | cons a t1 ih =>
    intro l2 hp h1 h2
    cases l2 with
    | nil => exact absurd hp.symm.nil_eq (by simp)
    | cons b t2 =>
      by_cases hab : a = b
      · subst hab
        have htp : t1.Perm t2 := hp.cons_inv
        rw [ih t2 htp (List.pairwise_cons.mp h1).2 (List.pairwise_cons.mp h2).2]
      · have ha2 : a ∈ b :: t2 := hp.subset (by simp)
        have ha2m : a ∈ t2 := by
          rcases List.mem_cons.mp ha2 with h | h
          · exact absurd h hab
          · exact h
        have hb1 : b ∈ a :: t1 := hp.symm.subset (by simp)
        have hb1m : b ∈ t1 := by
          rcases List.mem_cons.mp hb1 with h | h
          · exact absurd h.symm hab
          · exact h
        have h1ab : opLess a b = true := (List.pairwise_cons.mp h1).1 b hb1m
        have h2ba : opLess b a = true := (List.pairwise_cons.mp h2).1 a ha2m
        rw [opLess_asymm a b h1ab] at h2ba
        exact absurd h2ba (by simp)

/-! ## Claim C3: layout of a validated DAG -/

/-- C3: for every validated DAG, handed to FromDAG as a topologically
ordered duplicate-free node list, the layout assigns each node the time
step stored in the nodeTimeStep map, where a parentless node gets 0 and a
node with parents gets a step sn whose predecessor sn - 1 is the maximum of
the parents' steps (attained by some parent and bounding all of them); each
operation's line is the minimum of the node's absolute qubits; and the
published Operations() list is the stable sort of those operations by
(time_step, line): a sorted permutation whose per-key subsequences are
untouched. -/
theorem c3_layout (qb cb : Nat) (nodes : List Node)
    (hnd : (nodes.map Node.id).Nodup) (htopo : ParentsBeforeB [] nodes = true) :
    layoutOpsAux [] nodes = (nodes.map fun n =>
      ⟨n.g, n.qubits, n.cbit, (tsLookup (tsMapAux [] nodes) n.id).getD 0,
        minQubit n.qubits⟩) ∧
    (∀ n ∈ nodes, n.parents = [] → tsLookup (tsMapAux [] nodes) n.id = some 0) ∧
    (∀ n ∈ nodes, n.parents ≠ [] → ∃ sn, tsLookup (tsMapAux [] nodes) n.id = some sn ∧
      (∃ p ∈ n.parents, tsLookup (tsMapAux [] nodes) p = some (sn - 1)) ∧
      (∀ p ∈ n.parents, ∀ sp, tsLookup (tsMapAux [] nodes) p = some sp → sp ≤ sn - 1)) ∧
    (∀ n ∈ nodes, n.qubits ≠ [] →
      minQubit n.qubits ∈ n.qubits ∧ ∀ q ∈ n.qubits, minQubit n.qubits ≤ q) ∧
    (FromDAG qb cb nodes).ops.Perm (layoutOpsAux [] nodes) ∧
    (FromDAG qb cb nodes).ops.Sorted leOp ∧
    (∀ k : Int × Int, (FromDAG qb cb nodes).ops.filter (fun o => decide (opKey o = k)) =
      (layoutOpsAux [] nodes).filter (fun o => decide (opKey o = k))) := by
  have hnd0 : (([] : List Nat) ++ nodes.map Node.id).Nodup := by simpa using hnd
  have hdom0 : ∀ p : Nat, (tsLookup [] p).isSome = true ↔ p ∈ ([] : List Nat) := by
    intro p
    rw [tsLookup]
    simp
  have hchar := tsMapAux_char nodes [] [] hnd0 hdom0 htopo
  refine ⟨layoutOpsAux_eq nodes [] [] hnd0 hdom0 htopo, ?_, ?_, ?_, ?_, ?_, ?_⟩
  · intro n hn hpar
    have := hchar n hn
    rw [hpar] at this
    exact this
  · intro n hn hpar
    refine ⟨layoutStep (tsMapAux [] nodes) n.parents, hchar n hn, ?_, ?_⟩
    · rcases stepFold_attained (tsMapAux [] nodes) n.parents (-1) with he | ⟨p, hp, hlk⟩
      · exfalso
        cases hppar : n.parents with
        | nil => exact hpar hppar
        | cons p0 prest =>
          have hp0 : p0 ∈ n.parents := by rw [hppar]; simp
          rcases parentsBeforeB_mem [] nodes htopo n hn p0 hp0 with hf | ⟨mn, hmn, hmid⟩
          · simp at hf
          · have hsome := tsMapAux_mem_isSome nodes [] mn hmn
            rw [Option.isSome_iff_exists] at hsome
            obtain ⟨sp0, hsp0⟩ := hsome
            have hnn := tsMapAux_nonneg nodes [] (by intro p s h; rw [tsLookup] at h; simp at h)
              mn.id sp0 hsp0
            rw [hmid] at hsp0
            have := stepFold_mem_le (tsMapAux [] nodes) n.parents (-1) p0 sp0 hp0 hsp0
            omega
      · refine ⟨p, hp, ?_⟩
        rw [hlk]
        congr 1
        rw [layoutStep_eq_stepFold]
        omega
    · intro p hp sp hsp
      have := stepFold_mem_le (tsMapAux [] nodes) n.parents (-1) p sp hp hsp
      rw [layoutStep_eq_stepFold]
      omega
  · intro n _ hq
    exact minQubit_spec n.qubits hq
  · cases hne : nodes with
    | nil =>
      rw [FromDAG]
      simp [layoutOpsAux]
    | cons x rest =>
      rw [FromDAG, if_neg (by simp)]
      exact List.perm_insertionSort leOp _
  · cases hne : nodes with
    | nil =>
      rw [FromDAG]
      simp
    | cons x rest =>
      rw [FromDAG, if_neg (by simp)]
      exact List.sorted_insertionSort leOp _
  · intro k
    cases hne : nodes with
    | nil =>
      rw [FromDAG]
      simp [layoutOpsAux]
    | cons x rest =>
      rw [FromDAG, if_neg (by simp)]
      exact filter_insertionSort_key k _

/-- C3 witness: on the concrete example the layout equations hold and the
published order is H(0)@0/0, H(1)@0/1, CNOT(0,2)@1/0, X(1)@1/1, CZ(0,1)@2/0. -/
theorem c3_layout_witness :
    (layoutOpsAux [] nodesW = nodesW.map fun n =>
      ⟨n.g, n.qubits, n.cbit, (tsLookup (tsMapAux [] nodesW) n.id).getD 0,
        minQubit n.qubits⟩) ∧
    (FromDAG 3 0 nodesW).ops.map (fun o => (o.g.name, o.timeStep, o.line)) =
      [("H", 0, 0), ("H", 0, 1), ("CNOT", 1, 0), ("X", 1, 1), ("CZ", 2, 0)] :=
  ⟨(c3_layout 3 0 nodesW (by decide) (by decide)).1, by decide⟩

/-! ## Claim C2: determinism of the published order

calculateTopoSort (qc/dag/dag.go lines 210-250) iterates over Go maps and
sets, so the topological order it emits is only pinned down to: a
permutation of the nodes in which every node's parents precede it.  The
published operation order is nevertheless unique because, for every DAG a
builder program can produce, two distinct nodes sharing a qubit wire get
distinct time steps, hence distinct (time_step, line) sort keys, and a
sorted list with pairwise-distinct keys is determined by its multiset.
BInv collects the builder-reachable state facts that make this go through. -/

theorem addChild_core (nodes : List Node) (pid nid : Nat) :
    (addChild nodes pid nid).map coreOf = nodes.map coreOf := by
  induction nodes with
  | nil => rfl
  | cons m rest ih =>
    rw [addChild, List.map_cons, List.map_cons, List.map_cons]
    rw [addChild] at ih
    rw [ih]
    by_cases h : m.id = pid
    · rw [if_pos h]
      rfl
    · rw [if_neg h]

theorem buildEdgesStep_nodes (nid : Nat) (acc : EdgeAcc) (q : Int) :
    (buildEdgesStep nid acc q).nodes =
      if acc.last.getD q.toNat 0 ≠ 0 ∧ acc.last.getD q.toNat 0 ∉ acc.parents then
        addChild acc.nodes (acc.last.getD q.toNat 0) nid
      else acc.nodes := by
  simp only [buildEdgesStep]
  by_cases hc : acc.last.getD q.toNat 0 ≠ 0 ∧ acc.last.getD q.toNat 0 ∉ acc.parents
  · rw [if_pos hc, if_pos hc]
  · rw [if_neg hc, if_neg hc]

theorem buildEdges_nodes_core (nid : Nat) (qs : List Int) (acc : EdgeAcc) :
    (buildEdges nid acc qs).nodes.map coreOf = acc.nodes.map coreOf := by
  induction qs generalizing acc with
  | nil => rfl
  | cons q rest ih =>
    rw [buildEdges, ih, buildEdgesStep_nodes]
    by_cases hc : acc.last.getD q.toNat 0 ≠ 0 ∧ acc.last.getD q.toNat 0 ∉ acc.parents
    · rw [if_pos hc, addChild_core]
    · rw [if_neg hc]

theorem tsMapAux_core_congr (nodes1 : List Node) :
    ∀ (nodes2 : List Node) (m : List (Nat × Int)),
      nodes1.map coreOf = nodes2.map coreOf →
      tsMapAux m nodes1 = tsMapAux m nodes2 := by
  induction nodes1 with
  | nil =>
    intro nodes2 m h
    cases nodes2 with
    | nil => rfl
    | cons y ys => simp at h
  | cons x xs ih =>
    intro nodes2 m h
    cases nodes2 with
    | nil => simp at h
    | cons y ys =>
      simp only [List.map_cons, List.cons.injEq] at h
      have hid : x.id = y.id := congrArg Prod.fst h.1
      have hpar : x.parents = y.parents := congrArg (fun t => t.2.2) h.1
      rw [tsMapAux, tsMapAux, hid, hpar]
      exact ih ys _ h.2

theorem core_mem_transfer (nodes1 nodes2 : List Node)
    (h : nodes1.map coreOf = nodes2.map coreOf) :
    ∀ n ∈ nodes1, ∃ n2 ∈ nodes2,
      n2.id = n.id ∧ n2.qubits = n.qubits ∧ n2.parents = n.parents := by
  intro n hn
  have hmem : coreOf n ∈ nodes2.map coreOf := by
    rw [← h]
    exact List.mem_map_of_mem _ hn
  obtain ⟨n2, hn2, he⟩ := List.mem_map.mp hmem
  exact ⟨n2, hn2, congrArg Prod.fst he, congrArg (fun t => t.2.1) he,
    congrArg (fun t => t.2.2) he⟩

theorem core_ids_eq (nodes1 nodes2 : List Node)
    (h : nodes1.map coreOf = nodes2.map coreOf) :
    nodes1.map Node.id = nodes2.map Node.id := by
  have h2 := congrArg (List.map Prod.fst) h
  rw [List.map_map, List.map_map] at h2
  have hfe : (Prod.fst ∘ coreOf) = Node.id := funext fun n => rfl
  rw [hfe] at h2
  exact h2

theorem parentsBefore_of_sorted (nodes : List Node) : ∀ seen : List Nat,
    nodes.Pairwise (fun a b => a.id < b.id) →
    (∀ n ∈ nodes, ∀ p ∈ n.parents, p ∈ seen ∨ ∃ m ∈ nodes, m.id = p ∧ p < n.id) →
    ParentsBeforeB seen nodes = true := by
  induction nodes with
  | nil => intro seen _ _; rfl
  | cons x rest ih =>
    intro seen hs hp
    rw [ParentsBeforeB, Bool.and_eq_true]
    constructor
    · rw [List.all_eq_true]
      intro p hpp
      rcases hp x (by simp) p hpp with hseen | ⟨m, hm, hmid, hlt⟩
      · simpa using hseen
      · exfalso
        rcases List.mem_cons.mp hm with hmx | hmr
        · rw [hmx] at hmid
          omega
        · have := (List.pairwise_cons.mp hs).1 m hmr
          omega
    · refine ih (x.id :: seen) (List.pairwise_cons.mp hs).2 ?_
      intro n hn p hpp
      rcases hp n (by simp [hn]) p hpp with hseen | ⟨m, hm, hmid, hlt⟩
      · exact Or.inl (by simp [hseen])
      · rcases List.mem_cons.mp hm with hmx | hmr
        · rw [hmx] at hmid
          exact Or.inl (by simp [hmid.symm])
        · exact Or.inr ⟨m, hmr, hmid, hlt⟩

theorem BInv_new (qb cb : Nat) : BInv (DAG.new qb cb) := by
  refine ⟨by simp [DAG.new], le_refl 1, ?_, List.Pairwise.nil, ?_, ?_, ?_, ?_, ?_⟩
  · intro n hn
    simp [DAG.new] at hn
  · intro n hn
    simp [DAG.new] at hn
  · intro i
    left
    show (List.replicate qb 0).getD i 0 = 0
    rw [List.getD_eq_getElem?_getD, List.getElem?_replicate]
    by_cases h : i < qb
    · rw [if_pos h]
      rfl
    · rw [if_neg h]
      rfl
  · intro n hn
    simp [DAG.new] at hn
  · intro m hm
    simp [DAG.new] at hm
  · intro a ha
    simp [DAG.new] at ha

/-- Preservation core: appending one fresh node whose parents are exactly
the nonzero last writers of its (nonempty, in-range) qubits, while moving
those qubits' last-writer pointers to the new id, keeps every BInv fact. -/
theorem BInv_extend (d d2 : DAG) (g : Gate) (qs : List Int) (cb : Int)
    (nodes1 : List Node) (last1 : List Nat) (pars : List Nat)
    (hinv : BInv d)
    (hn2 : d2.nodes = nodes1 ++ [⟨d.nextId, g, qs, cb, pars, []⟩])
    (hq2 : d2.qubits = d.qubits)
    (hl2 : d2.last = last1)
    (hx2 : d2.nextId = d.nextId + 1)
    (hcore : nodes1.map coreOf = d.nodes.map coreOf)
    (hlast1len : last1.length = d.last.length)
    (hlast1 : ∀ i : Nat,
      last1.getD i 0 = if i ∈ qs.map (fun q => q.toNat) then d.nextId else d.last.getD i 0)
    (hpars : ∀ p : Nat, p ∈ pars ↔ p ≠ 0 ∧ ∃ q ∈ qs, d.last.getD q.toNat 0 = p)
    (hqsne : qs ≠ [])
    (hrange : ∀ q ∈ qs, 0 ≤ q ∧ q < (d.qubits : Int)) :
    BInv d2 := by
  have hmap2 : tsMapAux [] d2.nodes =
      (d.nextId, layoutStep (tsMapAux [] d.nodes) pars) :: tsMapAux [] d.nodes := by
    rw [hn2, tsMapAux_append, tsMapAux_core_congr nodes1 d.nodes [] hcore]
  have htsNew : tsOfId d2 d.nextId = layoutStep (tsMapAux [] d.nodes) pars := by
    unfold tsOfId
    rw [hmap2, tsLookup, if_pos rfl]
    rfl
  have htsOld : ∀ i : Nat, i ≠ d.nextId → tsOfId d2 i = tsOfId d i := by
    intro i hi
    unfold tsOfId
    rw [hmap2, tsLookup_cons _ _ _ _ (Ne.symm hi)]
  have hidlt : ∀ n ∈ nodes1, 1 ≤ n.id ∧ n.id < d.nextId := by
    intro n hn
    obtain ⟨n2, hn2m, hid, -, -⟩ := core_mem_transfer nodes1 d.nodes hcore n hn
    have := hinv.idsBound n2 hn2m
    omega
  have hback := core_mem_transfer d.nodes nodes1 hcore.symm
  have hplk : ∀ p ∈ pars, ∃ sp : Int,
      tsLookup (tsMapAux [] d.nodes) p = some sp ∧ tsOfId d p = sp := by
    intro p hp
    obtain ⟨hpnz, q, hq, hrd⟩ := (hpars p).mp hp
    rcases hinv.lastGood q.toNat with h0 | ⟨m, hm, hmid⟩
    · exact absurd (h0.symm.trans hrd).symm hpnz
    · rw [hrd] at hmid
      have hsome := tsMapAux_mem_isSome d.nodes [] m hm
      obtain ⟨sp, hsp⟩ := Option.isSome_iff_exists.mp hsome
      rw [hmid] at hsp
      refine ⟨sp, hsp, ?_⟩
      unfold tsOfId
      rw [hsp]
      rfl
  have hkey : ∀ m ∈ d.nodes, ∀ q ∈ m.qubits, q ∈ qs →
      tsOfId d m.id < layoutStep (tsMapAux [] d.nodes) pars := by
    intro m hm q hq hqin
    obtain ⟨-, -, w, hw, hwid, hdom⟩ := hinv.domInv m hm q hq
    have hwpos := (hinv.idsBound w hw).1
    have hppar : w.id ∈ pars := (hpars w.id).mpr ⟨by omega, q, hqin, hwid.symm⟩
    obtain ⟨sp, hsp, hts⟩ := hplk w.id hppar
    have hge := layoutStep_ge (tsMapAux [] d.nodes) pars w.id sp hppar hsp
    rcases hdom with hlt | heq
    · rw [hts] at hlt
      omega
    · rw [heq, hts]
      omega
  refine ⟨?_, ?_, ?_, ?_, ?_, ?_, ?_, ?_, ?_⟩
  · rw [hl2, hq2, hlast1len, hinv.lastLen]
  · rw [hx2]
    omega
  · intro n hn
    rw [hn2] at hn
    rw [hx2]
    rcases List.mem_append.mp hn with hn1 | hnw
    · have := hidlt n hn1
      omega
    · have hne : n = ⟨d.nextId, g, qs, cb, pars, []⟩ := by simpa using hnw
      subst hne
      refine ⟨hinv.nextPos, ?_⟩
      show d.nextId < d.nextId + 1
      omega
  · rw [hn2]
    refine List.pairwise_append.mpr ⟨?_, List.pairwise_singleton _ _, ?_⟩
    · have h1 : (d.nodes.map Node.id).Pairwise (· < ·) :=
        List.pairwise_map.mpr hinv.idsSorted
      rw [← core_ids_eq nodes1 d.nodes hcore] at h1
      exact List.pairwise_map.mp h1
    · intro a ha b hb
      have hbe : b = ⟨d.nextId, g, qs, cb, pars, []⟩ := by simpa using hb
      subst hbe
      show a.id < d.nextId
      exact (hidlt a ha).2
  · intro n hn p hp
    rw [hn2] at hn ⊢
    rcases List.mem_append.mp hn with hn1 | hnw
    · obtain ⟨n2, hn2m, hid, -, hpar⟩ := core_mem_transfer nodes1 d.nodes hcore n hn1
      have hp2 : p ∈ n2.parents := by
        rw [hpar]
        exact hp
      obtain ⟨hlt, mm, hmm, hmmid⟩ := hinv.parentsGood n2 hn2m p hp2
      obtain ⟨m2, hm2, hm2id, -, -⟩ := hback mm hmm
      refine ⟨by omega, m2, List.mem_append.mpr (Or.inl hm2), ?_⟩
      rw [hm2id]
      exact hmmid
    · have hne : n = ⟨d.nextId, g, qs, cb, pars, []⟩ := by simpa using hnw
      subst hne
      have hp2 : p ∈ pars := hp
      obtain ⟨hpnz, qx, hqx, hrd⟩ := (hpars p).mp hp2
      rcases hinv.lastGood qx.toNat with h0 | ⟨mm, hmm, hmmid⟩
      · exact absurd (h0.symm.trans hrd).symm hpnz
      · rw [hrd] at hmmid
        obtain ⟨m2, hm2, hm2id, -, -⟩ := hback mm hmm
        have hplt := hinv.idsBound mm hmm
        refine ⟨?_, m2, List.mem_append.mpr (Or.inl hm2), ?_⟩
        · show p < d.nextId
          omega
        · rw [hm2id]
          exact hmmid
  · intro i
    rw [hl2, hn2, hlast1]
    by_cases hin : i ∈ qs.map (fun q => q.toNat)
    · rw [if_pos hin]
      exact Or.inr ⟨⟨d.nextId, g, qs, cb, pars, []⟩, by simp, rfl⟩
    · rw [if_neg hin]
      rcases hinv.lastGood i with h0 | ⟨mm, hmm, hmmid⟩
      · exact Or.inl h0
      · obtain ⟨m2, hm2, hm2id, -, -⟩ := hback mm hmm
        refine Or.inr ⟨m2, List.mem_append.mpr (Or.inl hm2), ?_⟩
        rw [hm2id]
        exact hmmid
  · intro n hn
    rw [hn2] at hn
    rcases List.mem_append.mp hn with hn1 | hnw
    · obtain ⟨n2, hn2m, -, hqb, -⟩ := core_mem_transfer nodes1 d.nodes hcore n hn1
      exact hqb ▸ hinv.qubitsNe n2 hn2m
    · have hne : n = ⟨d.nextId, g, qs, cb, pars, []⟩ := by simpa using hnw
      subst hne
      exact hqsne
  · intro m hm q hq
    rw [hn2] at hm
    rcases List.mem_append.mp hm with hm1 | hmw
    · obtain ⟨m2, hm2m, hid, hqb, -⟩ := core_mem_transfer nodes1 d.nodes hcore m hm1
      have hq2m : q ∈ m2.qubits := by
        rw [hqb]
        exact hq
      obtain ⟨hq0, hqlt, w, hw, hwid, hdom⟩ := hinv.domInv m2 hm2m q hq2m
      have hmne : m.id ≠ d.nextId := by
        have := hidlt m hm1
        omega
      refine ⟨hq0, by rw [hq2]; exact hqlt, ?_⟩
      by_cases hqin : q ∈ qs
      · refine ⟨⟨d.nextId, g, qs, cb, pars, []⟩, by rw [hn2]; simp, ?_, ?_⟩
        · rw [hl2, hlast1, if_pos (List.mem_map_of_mem _ hqin)]
        · left
          show tsOfId d2 m.id < tsOfId d2 d.nextId
          rw [htsOld m.id hmne, htsNew]
          have hkq := hkey m2 hm2m q hq2m hqin
          rw [hid] at hkq
          exact hkq
      · have hqtn : q.toNat ∉ qs.map (fun x => x.toNat) := by
          intro hmem
          obtain ⟨x, hx, hxe⟩ := List.mem_map.mp hmem
          have hxr := hrange x hx
          have hxq : x = q := by omega
          rw [hxq] at hx
          exact hqin hx
        obtain ⟨w2, hw2, hw2id, -, -⟩ := hback w hw
        have hwne : w2.id ≠ d.nextId := by
          have := hinv.idsBound w hw
          omega
        refine ⟨w2, by rw [hn2]; exact List.mem_append.mpr (Or.inl hw2), ?_, ?_⟩
        · rw [hl2, hlast1, if_neg hqtn, hw2id]
          exact hwid
        · rw [htsOld m.id hmne, htsOld w2.id hwne, hw2id, ← hid]
          exact hdom
    · have hne : m = ⟨d.nextId, g, qs, cb, pars, []⟩ := by simpa using hmw
      subst hne
      have hqin : q ∈ qs := hq
      have hr := hrange q hqin
      refine ⟨hr.1, by rw [hq2]; exact hr.2,
        ⟨d.nextId, g, qs, cb, pars, []⟩, by rw [hn2]; simp, ?_, Or.inr rfl⟩
      rw [hl2, hlast1, if_pos (List.mem_map_of_mem _ hqin)]
  · intro a ha b hb hne q hqa hqb
    rw [hn2] at ha hb
    rcases List.mem_append.mp ha with ha1 | haw
    · rcases List.mem_append.mp hb with hb1 | hbw
      · obtain ⟨a2, ha2m, haid, haqb, -⟩ := core_mem_transfer nodes1 d.nodes hcore a ha1
        obtain ⟨b2, hb2m, hbid, hbqb, -⟩ := core_mem_transfer nodes1 d.nodes hcore b hb1
        have hane : a.id ≠ d.nextId := by
          have := hidlt a ha1
          omega
        have hbne : b.id ≠ d.nextId := by
          have := hidlt b hb1
          omega
        rw [htsOld a.id hane, htsOld b.id hbne]
        have hres := hinv.pairInv a2 ha2m b2 hb2m (by rw [haid, hbid]; exact hne) q
          (by rw [haqb]; exact hqa) (by rw [hbqb]; exact hqb)
        rw [haid, hbid] at hres
        exact hres
      · have hbe : b = ⟨d.nextId, g, qs, cb, pars, []⟩ := by simpa using hbw
        subst hbe
        obtain ⟨a2, ha2m, haid, haqb, -⟩ := core_mem_transfer nodes1 d.nodes hcore a ha1
        have hane : a.id ≠ d.nextId := hne
        have hkq := hkey a2 ha2m q (by rw [haqb]; exact hqa) hqb
        show tsOfId d2 a.id ≠ tsOfId d2 d.nextId
        rw [htsOld a.id hane, htsNew]
        rw [haid] at hkq
        omega
    · have hae : a = ⟨d.nextId, g, qs, cb, pars, []⟩ := by simpa using haw
      subst hae
      rcases List.mem_append.mp hb with hb1 | hbw
      · obtain ⟨b2, hb2m, hbid, hbqb, -⟩ := core_mem_transfer nodes1 d.nodes hcore b hb1
        have hbne : b.id ≠ d.nextId := fun he => hne he.symm
        have hkq := hkey b2 hb2m q (by rw [hbqb]; exact hqb) hqa
        show tsOfId d2 d.nextId ≠ tsOfId d2 b.id
        rw [htsOld b.id hbne, htsNew]
        rw [hbid] at hkq
        omega
      · have hbe : b = ⟨d.nextId, g, qs, cb, pars, []⟩ := by simpa using hbw
        subst hbe
        exact absurd rfl hne

theorem BInv_addGate (d : DAG) (g : Gate) (qs : List Int) (d2 : DAG)
    (hinv : BInv d) (hspan : g.qubitSpan ≠ 0)
    (h : AddGate d g qs = .ok d2) : BInv d2 := by
  by_cases hv : d.valid
  · rw [AddGate, if_pos hv] at h
    exact absurd h (by simp)
  · rw [AddGate, if_neg hv] at h
    cases hchk : checkGate d.qubits g qs with
    | some e =>
      rw [hchk] at h
      exact absurd h (by simp)
    | none =>
      rw [hchk] at h
      have hlenqs : qs.length = g.qubitSpan := by
        rw [checkGate] at hchk
        by_cases hl : qs.length ≠ g.qubitSpan
        · rw [if_pos hl] at hchk
          exact absurd hchk (by simp)
        · push_neg at hl
          exact hl
      have haux : checkGateAux d.qubits [] qs = none := by
        rw [checkGate, if_neg (by omega)] at hchk
        exact hchk
      obtain ⟨hrange, hnd, -⟩ := checkGateAux_none_imp d.qubits qs [] haux
      have hqsne : qs ≠ [] := by
        intro he
        rw [he] at hlenqs
        exact hspan hlenqs.symm
      have hrange2 : ∀ x ∈ qs, x.toNat < (⟨d.nodes, d.byQ, d.last, []⟩ : EdgeAcc).last.length := by
        intro x hx
        have := hrange x hx
        show x.toNat < d.last.length
        rw [hinv.lastLen]
        omega
      have hmapnd : (qs.map fun x => x.toNat).Nodup := by
        refine List.Nodup.map_on ?_ hnd
        intro x hx y hy he
        have hx2 := hrange x hx
        have hy2 := hrange y hy
        omega
      have hd2 := (Except.ok.inj h).symm
      refine BInv_extend d d2 g qs (-1)
        (buildEdges d.nextId ⟨d.nodes, d.byQ, d.last, []⟩ qs).nodes
        (buildEdges d.nextId ⟨d.nodes, d.byQ, d.last, []⟩ qs).last
        (buildEdges d.nextId ⟨d.nodes, d.byQ, d.last, []⟩ qs).parents
        hinv ?_ ?_ ?_ ?_ ?_ ?_ ?_ ?_ hqsne hrange
      · rw [hd2]
      · rw [hd2]
      · rw [hd2]
      · rw [hd2]
      · exact buildEdges_nodes_core _ _ _
      · exact buildEdges_last_length _ _ _
      · intro i
        exact buildEdges_last_getD d.nextId qs _ i hrange2
      · intro p
        rw [buildEdges_parents_mem d.nextId qs _ hmapnd hrange2 p]
        simp

theorem BInv_addMeasure (d : DAG) (q c : Int) (d2 : DAG)
    (hinv : BInv d) (h : AddMeasure d q c = .ok d2) : BInv d2 := by
  by_cases hv : d.valid
  · rw [AddMeasure, if_pos hv] at h
    exact absurd h (by simp)
  · rw [AddMeasure, if_neg hv] at h
    by_cases hq : q < 0 ∨ (d.qubits : Int) ≤ q
    · rw [if_pos hq] at h
      exact absurd h (by simp)
    · rw [if_neg hq] at h
      by_cases hcb : c < 0 ∨ (d.clbits : Int) ≤ c
      · rw [if_pos hcb] at h
        exact absurd h (by simp)
      · rw [if_neg hcb] at h
        push_neg at hq
        have hqlen : q.toNat < d.last.length := by
          rw [hinv.lastLen]
          omega
        have hd2 := (Except.ok.inj h).symm
        refine BInv_extend d d2 measG [q] c
          (if d.last.getD q.toNat 0 ≠ 0 then
            addChild d.nodes (d.last.getD q.toNat 0) d.nextId else d.nodes)
          (d.last.set q.toNat d.nextId)
          (if d.last.getD q.toNat 0 ≠ 0 then [d.last.getD q.toNat 0] else [])
          hinv ?_ ?_ ?_ ?_ ?_ ?_ ?_ ?_ (by simp) ?_
        · rw [hd2]
        · rw [hd2]
        · rw [hd2]
        · rw [hd2]
        · by_cases hp : d.last.getD q.toNat 0 ≠ 0
          · rw [if_pos hp, addChild_core]
          · rw [if_neg hp]
        · rw [List.length_set]
        · intro i
          by_cases hi : i ∈ ([q] : List Int).map (fun x => x.toNat)
          · have hiq : i = q.toNat := by simpa using hi
            rw [if_pos hi, hiq, List.getD_eq_getElem?_getD,
              List.getElem?_set_self hqlen, Option.getD_some]
          · have hiq : i ≠ q.toNat := by simpa using hi
            rw [if_neg hi, List.getD_eq_getElem?_getD,
              List.getElem?_set_ne (Ne.symm hiq), ← List.getD_eq_getElem?_getD]
        · intro p
          by_cases hp : d.last.getD q.toNat 0 ≠ 0
          · rw [if_pos hp]
            constructor
            · intro hmem
              have he : p = d.last.getD q.toNat 0 := List.mem_singleton.mp hmem
              exact ⟨by rw [he]; exact hp, q, by simp, he.symm⟩
            · rintro ⟨hpnz, x, hx, hrd⟩
              have hxq : x = q := by simpa using hx
              rw [hxq] at hrd
              exact List.mem_singleton.mpr hrd.symm
          · rw [if_neg hp]
            push_neg at hp
            constructor
            · intro hmem
              simp at hmem
            · rintro ⟨hpnz, x, hx, hrd⟩
              have hxq : x = q := by simpa using hx
              rw [hxq, hp] at hrd
              exact absurd hrd.symm hpnz
        · intro x hx
          have hxq : x = q := by simpa using hx
          rw [hxq]
          exact ⟨by omega, by omega⟩

theorem BInv_buildStep (st : DAG × Option DagErr) (call : BCall)
    (hinv : BInv st.1) : BInv (buildSteps st call).1 := by
  rw [buildSteps]
  cases hl : st.2 with
  | some e => exact hinv
  | none =>
    cases hc : applyCall st.1 call with
    | error e => exact hinv
    | ok d2 =>
      show BInv d2
      cases call with
      | h q => exact BInv_addGate st.1 hGate [q] d2 hinv (by decide) hc
      | x q => exact BInv_addGate st.1 xGate [q] d2 hinv (by decide) hc
      | s q => exact BInv_addGate st.1 sGate [q] d2 hinv (by decide) hc
      | cnot c t => exact BInv_addGate st.1 cnotG [c, t] d2 hinv (by decide) hc
      | cz c t => exact BInv_addGate st.1 czGate [c, t] d2 hinv (by decide) hc
      | swap a b => exact BInv_addGate st.1 swapG [a, b] d2 hinv (by decide) hc
      | toffoli a b t => exact BInv_addGate st.1 toffG [a, b, t] d2 hinv (by decide) hc
      | fredkin c t1 t2 => exact BInv_addGate st.1 fredG [c, t1, t2] d2 hinv (by decide) hc
      | measure q c => exact BInv_addMeasure st.1 q c d2 hinv hc

theorem BInv_buildFold (prog : List BCall) : ∀ st : DAG × Option DagErr,
    BInv st.1 → BInv (prog.foldl buildSteps st).1 := by
  induction prog with
  | nil =>
    intro st h
    exact h
  | cons c rest ih =>
    intro st h
    rw [List.foldl_cons]
    exact ih _ (BInv_buildStep st c h)

theorem BInv_buildDag (qb cb : Nat) (prog : List BCall) : BInv (buildDag qb cb prog) :=
  BInv_buildFold prog (DAG.new qb cb, none) (BInv_new qb cb)

theorem map_congr_mem {α β : Type} (l : List α) (f g : α → β)
    (h : ∀ a ∈ l, f a = g a) : l.map f = l.map g := by
  induction l with
  | nil => rfl
  | cons x t ih =>
    rw [List.map_cons, List.map_cons, h x (by simp), ih fun a ha => h a (by simp [ha])]

theorem pairwise_conj {α : Type} {R S : α → α → Prop} (l : List α)
    (h1 : l.Pairwise R) (h2 : l.Pairwise S) :
    l.Pairwise fun a b => R a b ∧ S a b := by
  induction l with
  | nil => exact List.Pairwise.nil
  | cons x t ih =>
    rcases List.pairwise_cons.mp h1 with ⟨hx1, ht1⟩
    rcases List.pairwise_cons.mp h2 with ⟨hx2, ht2⟩
    exact List.pairwise_cons.mpr ⟨fun b hb => ⟨hx1 b hb, hx2 b hb⟩, ih ht1 ht2⟩

theorem idmap_inj (l : List Node) (h : (l.map Node.id).Nodup) :
    ∀ a ∈ l, ∀ b ∈ l, a.id = b.id → a = b := by
  induction l with
  | nil => simp
  | cons x t ih =>
    rw [List.map_cons, List.nodup_cons] at h
    intro a ha b hb he
    rcases List.mem_cons.mp ha with hax | hat
    · rcases List.mem_cons.mp hb with hbx | hbt
      · rw [hax, hbx]
      · exfalso
        refine h.1 ?_
        rw [hax] at he
        rw [he]
        exact List.mem_map_of_mem Node.id hbt
    · rcases List.mem_cons.mp hb with hbx | hbt
      · exfalso
        refine h.1 ?_
        rw [hbx] at he
        rw [← he]
        exact List.mem_map_of_mem Node.id hat
      · exact ih h.2 a hat b hbt he

/-- Two distinct nodes of a builder-produced DAG never share a sort key:
equal lines force a shared minimum qubit, and two nodes on a shared wire
have distinct time steps. -/
theorem canon_key_ne (qb cb : Nat) (prog : List BCall) :
    ∀ a ∈ (buildDag qb cb prog).nodes, ∀ b ∈ (buildDag qb cb prog).nodes, a ≠ b →
      opKey (canonOp (buildDag qb cb prog) a) ≠ opKey (canonOp (buildDag qb cb prog) b) := by
  have hinv := BInv_buildDag qb cb prog
  have hndid : ((buildDag qb cb prog).nodes.map Node.id).Nodup :=
    (List.pairwise_map.mpr hinv.idsSorted).imp Nat.ne_of_lt
  intro a ha b hb hab hk
  have hidne : a.id ≠ b.id :=
    fun he => hab (idmap_inj (buildDag qb cb prog).nodes hndid a ha b hb he)
  have hk2 : (tsOfId (buildDag qb cb prog) a.id, minQubit a.qubits) =
      (tsOfId (buildDag qb cb prog) b.id, minQubit b.qubits) := hk
  rw [Prod.mk.injEq] at hk2
  have hmema := (minQubit_spec a.qubits (hinv.qubitsNe a ha)).1
  have hmemb := (minQubit_spec b.qubits (hinv.qubitsNe b hb)).1
  have hmemb2 : minQubit a.qubits ∈ b.qubits := by
    rw [hk2.2]
    exact hmemb
  exact hinv.pairInv a ha b hb hidne (minQubit a.qubits) hmema hmemb2 hk2.1

/-- C2: for every builder program, the published operation sequence of the
laid-out circuit is the same for any two node orders the topological sort
may emit (permutations of the DAG nodes in which every node's parents
precede it, the only property Kahn's algorithm over Go map iteration
guarantees); moreover no two published operations ever share a
(time_step, line) key, so the tie case of the stable order is vacuous; and
on the creation-ordered node list the stable sort leaves every
equal-key subsequence in creation order (filters by key are untouched). -/
theorem c2_published_order_deterministic (qb cb : Nat) (prog : List BCall)
    (ord1 ord2 : List Node)
    (hp1 : ord1.Perm (buildDag qb cb prog).nodes)
    (hp2 : ord2.Perm (buildDag qb cb prog).nodes)
    (ht1 : ParentsBeforeB [] ord1 = true)
    (ht2 : ParentsBeforeB [] ord2 = true) :
    (FromDAG qb cb ord1).ops = (FromDAG qb cb ord2).ops ∧
    (FromDAG qb cb ord1).ops.Pairwise (fun a b => opKey a ≠ opKey b) ∧
    (∀ k : Int × Int,
      (FromDAG qb cb (buildDag qb cb prog).nodes).ops.filter
          (fun o => decide (opKey o = k)) =
        (layoutOpsAux [] (buildDag qb cb prog).nodes).filter
          (fun o => decide (opKey o = k))) := by
  have hinv := BInv_buildDag qb cb prog
  have hndid : ((buildDag qb cb prog).nodes.map Node.id).Nodup :=
    (List.pairwise_map.mpr hinv.idsSorted).imp Nat.ne_of_lt
  have htd : ParentsBeforeB [] (buildDag qb cb prog).nodes = true := by
    refine parentsBefore_of_sorted _ [] hinv.idsSorted ?_
    intro n hn p hp
    obtain ⟨hlt, m, hm, hmid⟩ := hinv.parentsGood n hn p hp
    exact Or.inr ⟨m, hm, hmid, hlt⟩
  have hfilter : ∀ k : Int × Int,
      (FromDAG qb cb (buildDag qb cb prog).nodes).ops.filter
          (fun o => decide (opKey o = k)) =
        (layoutOpsAux [] (buildDag qb cb prog).nodes).filter
          (fun o => decide (opKey o = k)) := by
    intro k
    cases hne : (buildDag qb cb prog).nodes with
    | nil =>
      rw [FromDAG]
      simp [layoutOpsAux]
    | cons x rest =>
      rw [FromDAG, if_neg (by simp)]
      exact filter_insertionSort_key k _
  have hcanon : ∀ (ord : List Node), ord.Perm (buildDag qb cb prog).nodes →
      ParentsBeforeB [] ord = true →
      layoutOpsAux [] ord = ord.map (canonOp (buildDag qb cb prog)) := by
    intro ord hp ht
    have hndo : (ord.map Node.id).Nodup := ((hp.map Node.id).nodup_iff).mpr hndid
    have hsmo : ∀ n ∈ ord, ∀ p ∈ n.parents, p < n.id := by
      intro n hn p hpp
      exact (hinv.parentsGood n (hp.subset hn) p hpp).1
    rw [layoutOpsAux_eq ord [] [] (by simpa using hndo)
      (by intro p; rw [tsLookup]; simp) ht]
    refine map_congr_mem _ _ _ ?_
    intro n hn
    have hts := ts_unique ord (buildDag qb cb prog).nodes hp hndo ht htd hsmo n hn
    show (⟨n.g, n.qubits, n.cbit, (tsLookup (tsMapAux [] ord) n.id).getD 0,
      minQubit n.qubits⟩ : Operation) = _
    rw [hts]
    rfl
  have hkeyne : ∀ (ord : List Node), ord.Perm (buildDag qb cb prog).nodes →
      (ord.map (canonOp (buildDag qb cb prog))).Pairwise
        (fun a b => opKey a ≠ opKey b) := by
    intro ord hp
    have hndo : (ord.map Node.id).Nodup := ((hp.map Node.id).nodup_iff).mpr hndid
    have hnodupo : ord.Nodup := hndo.of_map
    refine List.pairwise_map.mpr ?_
    refine hnodupo.imp_of_mem ?_
    intro a b ha hb hab
    exact canon_key_ne qb cb prog a (hp.subset ha) b (hp.subset hb) hab
  by_cases hord1 : ord1.isEmpty
  · have he1 : ord1 = [] := List.isEmpty_iff.mp hord1
    have he2 : ord2 = [] := by
      rw [he1] at hp1
      exact (hp1.trans hp2.symm).nil_eq.symm
    rw [he1, he2]
    exact ⟨rfl, by rw [FromDAG]; simp, hfilter⟩
  · have hord2 : ¬ord2.isEmpty = true := by
      intro he
      rw [List.isEmpty_iff.mp he] at hp2
      rw [(hp1.trans hp2.symm).symm.nil_eq.symm] at hord1
      exact hord1 rfl
    have hops1 : (FromDAG qb cb ord1).ops =
        List.insertionSort leOp (ord1.map (canonOp (buildDag qb cb prog))) := by
      rw [FromDAG, if_neg hord1]
      show List.insertionSort leOp (layoutOpsAux [] ord1) = _
      rw [hcanon ord1 hp1 ht1]
    have hops2 : (FromDAG qb cb ord2).ops =
        List.insertionSort leOp (ord2.map (canonOp (buildDag qb cb prog))) := by
      rw [FromDAG, if_neg hord2]
      show List.insertionSort leOp (layoutOpsAux [] ord2) = _
      rw [hcanon ord2 hp2 ht2]
    have hkey1 : (FromDAG qb cb ord1).ops.Pairwise (fun a b => opKey a ≠ opKey b) := by
      rw [hops1]
      refine (List.Perm.pairwise_iff (fun h he => h he.symm)
        (List.perm_insertionSort leOp _)).mpr ?_
      exact hkeyne ord1 hp1
    have hkey2 : (FromDAG qb cb ord2).ops.Pairwise (fun a b => opKey a ≠ opKey b) := by
      rw [hops2]
      refine (List.Perm.pairwise_iff (fun h he => h he.symm)
        (List.perm_insertionSort leOp _)).mpr ?_
      exact hkeyne ord2 hp2
    have hsort1 : (FromDAG qb cb ord1).ops.Pairwise leOp := by
      rw [hops1]
      exact List.sorted_insertionSort leOp _
    have hsort2 : (FromDAG qb cb ord2).ops.Pairwise leOp := by
      rw [hops2]
      exact List.sorted_insertionSort leOp _
    have hstrict1 : (FromDAG qb cb ord1).ops.Pairwise (fun a b => opLess a b = true) :=
      (pairwise_conj _ hsort1 hkey1).imp fun h => leOp_keyne_lt _ _ h.1 h.2
    have hstrict2 : (FromDAG qb cb ord2).ops.Pairwise (fun a b => opLess a b = true) :=
      (pairwise_conj _ hsort2 hkey2).imp fun h => leOp_keyne_lt _ _ h.1 h.2
    have hperm12 : (FromDAG qb cb ord1).ops.Perm (FromDAG qb cb ord2).ops := by
      rw [hops1, hops2]
      exact (List.perm_insertionSort leOp _).trans
        (((hp1.trans hp2.symm).map _).trans (List.perm_insertionSort leOp _).symm)
    exact ⟨sorted_key_unique _ _ hperm12 hstrict1 hstrict2, hkey1, hfilter⟩

/-- C2 witness: the two-gate program H(0); H(1) gives two parentless nodes;
both emission orders of the topological sort publish the same operation
list, with pairwise-distinct (time_step, line) keys. -/
theorem c2_witness :
    ((FromDAG 2 0 [⟨1, hGate, [0], -1, [], []⟩, ⟨2, hGate, [1], -1, [], []⟩]).ops =
      (FromDAG 2 0 [⟨2, hGate, [1], -1, [], []⟩, ⟨1, hGate, [0], -1, [], []⟩]).ops) ∧
    (FromDAG 2 0 [⟨1, hGate, [0], -1, [], []⟩, ⟨2, hGate, [1], -1, [], []⟩]).ops.Pairwise
      (fun a b => opKey a ≠ opKey b) ∧
    (∀ k : Int × Int,
      (FromDAG 2 0 (buildDag 2 0 [.h 0, .h 1]).nodes).ops.filter
          (fun o => decide (opKey o = k)) =
        (layoutOpsAux [] (buildDag 2 0 [.h 0, .h 1]).nodes).filter
          (fun o => decide (opKey o = k))) :=
  c2_published_order_deterministic 2 0 [.h 0, .h 1]
    [⟨1, hGate, [0], -1, [], []⟩, ⟨2, hGate, [1], -1, [], []⟩]
    [⟨2, hGate, [1], -1, [], []⟩, ⟨1, hGate, [0], -1, [], []⟩]
    (by decide) (by decide) (by decide) (by decide)

end QPlay
